import Mathlib

/-!
Verification of the devdonalds cookbook service (`devdonalds.py`).

The embedding translates the three endpoint handlers of the source into
pure Lean functions:

* `parse_handwriting` — the Task 1 text normaliser (regex pipeline over
  characters);
* `create_entry` — the Task 2 validated append to the cookbook store;
* `summary` — the Task 3 breadth-first recipe expansion.  The Python
  `while queue:` loop is modelled by the fuel-indexed `summaryLoop`;
  `none` means the fuel bound was reached with work remaining.

Cookbook records are the raw JSON dictionaries of the source: a record
carries a `type` string together with `name`, `cookTime` and
`requiredItems` fields, and the handlers inspect the `type` field at run
time, exactly as the Python code does.  The per-request `ingredients`
dictionary is modelled as an insertion-ordered association list with
Python-dict update semantics.
-/

namespace Devdonalds

/-- A `(name, quantity)` element of a recipe's `requiredItems` list. -/
structure RequiredItem where
  name : String
  quantity : Int
  deriving DecidableEq, Repr

/-- A raw cookbook record as stored in `cookbook.json`: a dictionary with a
`type` tag plus the fields used by that type.  `cookTime` is only meaningful
for `"ingredient"` records and `requiredItems` only for `"recipe"` records,
mirroring the loosely typed dictionaries of the source. -/
structure CookEntry where
  type : String
  name : String
  cookTime : Int := 0
  requiredItems : List RequiredItem := []
  deriving DecidableEq, Repr

/-- `look_for_item`: first record in the cookbook whose `name` matches. -/
def look_for_item (name : String) : List CookEntry → Option CookEntry
  | [] => none
  | item :: rest => if item.name = name then some item else look_for_item name rest

/-- Value stored in the per-request `ingredients` dictionary:
`{'quantity': _, 'unit_cook_time': _}`. -/
structure IngInfo where
  quantity : Int
  unit_cook_time : Int
  deriving DecidableEq, Repr

/-- The `ingredients` dictionary: association list in insertion order. -/
abbrev IngDict := List (String × IngInfo)

/-- Python `d.get(n)` on the `ingredients` dictionary. -/
def dictFind (n : String) : IngDict → Option IngInfo
  | [] => none
  | (k, v) :: rest => if k = n then some v else dictFind n rest

/-- Python `d.pop(n, None)`: the removed value (if any) and the remaining
dictionary. -/
def dictPop (n : String) : IngDict → Option IngInfo × IngDict
  | [] => (none, [])
  | (k, v) :: rest =>
      if k = n then (some v, rest)
      else
        let r := dictPop n rest
        (r.1, (k, v) :: r.2)

/-- `ingredients[n]['quantity'] += d` (the key is present when this runs). -/
def dictIncQty (n : String) (d : Int) : IngDict → IngDict
  | [] => []
  | (k, v) :: rest =>
      if k = n then (k, ⟨v.quantity + d, v.unit_cook_time⟩) :: rest
      else (k, v) :: dictIncQty n d rest

/-- `ingredients[n]['unit_cook_time'] = t` (the key is present when this runs). -/
def dictSetUnit (n : String) (t : Int) : IngDict → IngDict
  | [] => []
  | (k, v) :: rest =>
      if k = n then (k, ⟨v.quantity, t⟩) :: rest
      else (k, v) :: dictSetUnit n t rest

/-- The `for item in current_item['requiredItems']` loop of `summary`:
append each child name to the queue and add `popped_quantity * quantity`
into its dictionary slot, creating the slot (with unit cook time 0) when
the name is new. -/
def processItems (pq : Int) : List RequiredItem → List String → IngDict →
    List String × IngDict
  | [], queue, ing => (queue, ing)
  | it :: rest, queue, ing =>
      let queue2 := queue ++ [it.name]
      let ing2 :=
        match dictFind it.name ing with
        | some _ => dictIncQty it.name (pq * it.quantity) ing
        | none => ing ++ [(it.name, ⟨pq * it.quantity, 0⟩)]
      processItems pq rest queue2 ing2

/-- Result of the `while queue:` loop: the final dictionary, a 400 error
body, or an unhandled `KeyError` (indexing a missing dictionary key). -/
inductive LoopRes where
  | done (ing : IngDict)
  | fail (msg : String)
  | crash
  deriving DecidableEq, Repr

/-- The `while queue:` loop of `summary`, fuel-indexed; `none` means the
fuel ran out with the queue still non-empty. -/
def summaryLoop (cookbook : List CookEntry) : Nat → List String → IngDict →
    Option LoopRes
  | _, [], ing => some (.done ing)
  | 0, _ :: _, _ => none
  | fuel + 1, n :: rest, ing =>
      match look_for_item n cookbook with
      | none => some (.fail "Items not in the cookbook")
      | some item =>
          if item.type = "recipe" then
            let p := dictPop n ing
            let pq :=
              match p.1 with
              | some info => info.quantity
              | none => 0
            let st := processItems pq item.requiredItems rest p.2
            summaryLoop cookbook fuel st.1 st.2
          else if item.type = "ingredient" then
            match dictFind n ing with
            | none => some .crash
            | some _ => summaryLoop cookbook fuel rest (dictSetUnit n item.cookTime ing)
          else
            summaryLoop cookbook fuel rest ing

/-- The JSON body of a successful `/summary` response. -/
structure Summary where
  name : String
  cookTime : Int
  ingredients : List (String × Int)
  deriving DecidableEq, Repr

/-- Outcome of one `/summary` request: 200 body, 400 error body, or an
unhandled exception. -/
inductive Outcome where
  | success (s : Summary)
  | badRequest (msg : String)
  | crash
  deriving DecidableEq, Repr

/-- The `/summary` endpoint: root lookup and type check, the expansion
loop, then the total-cook-time fold and the output list comprehension. -/
def summary (cookbook : List CookEntry) (name : String) (fuel : Nat) :
    Option Outcome :=
  match look_for_item name cookbook with
  | none => some (.badRequest "Recipe not found")
  | some target =>
      if target.type ≠ "recipe" then some (.badRequest "Recipe not found")
      else
        match summaryLoop cookbook fuel [target.name] [(target.name, ⟨1, 0⟩)] with
        | none => none
        | some (.fail msg) => some (.badRequest msg)
        | some .crash => some .crash
        | some (.done ing) =>
            let total := (ing.map (fun p => p.2.quantity * p.2.unit_cook_time)).sum
            some (.success ⟨name, total, ing.map (fun p => (p.1, p.2.quantity))⟩)

/-- The `/entry` endpoint: the four validation checks in source order,
then the append to the stored cookbook.  The first component is the 400
error body (`none` on success), the second the cookbook after the call. -/
def create_entry (cookbook : List CookEntry) (data : CookEntry) :
    Option String × List CookEntry :=
  if ¬(data.type = "recipe" ∨ data.type = "ingredient") then
    (some "Invalid type", cookbook)
  else if data.type = "ingredient" ∧ data.cookTime < 0 then
    (some "Invalid cookTime", cookbook)
  else if cookbook.any (fun d => d.name = data.name) then
    (some "Name already exists", cookbook)
  else if data.type = "recipe" ∧
      ((data.requiredItems.map (fun it => it.name)).dedup.length ≠
        data.requiredItems.length) then
    (some "Required items must have unique names", cookbook)
  else
    (none, cookbook ++ [data])

/-- The whitespace class of Python's `re` module (`\s` on `str`), by code
point: space, TAB, LF, VT, FF, CR, the C1 separators 28-31, NEL (U+0085),
NBSP (U+00A0), U+1680, U+2000-U+200A, U+2028, U+2029, U+202F, U+205F and
U+3000. -/
def isPySpace (c : Char) : Bool :=
  c.toNat = 32 ∨ c.toNat = 9 ∨ c.toNat = 10 ∨ c.toNat = 11 ∨
  c.toNat = 12 ∨ c.toNat = 13 ∨ c.toNat = 28 ∨ c.toNat = 29 ∨
  c.toNat = 30 ∨ c.toNat = 31 ∨ c.toNat = 133 ∨ c.toNat = 160 ∨
  c.toNat = 5760 ∨ (8192 ≤ c.toNat ∧ c.toNat ≤ 8202) ∨ c.toNat = 8232 ∨
  c.toNat = 8233 ∨ c.toNat = 8239 ∨ c.toNat = 8287 ∨ c.toNat = 12288

/-- ASCII letter, the class `[a-zA-Z]` (code points 97-122 and 65-90). -/
def isAsciiLetter (c : Char) : Bool :=
  (97 ≤ c.toNat ∧ c.toNat ≤ 122) ∨ (65 ≤ c.toNat ∧ c.toNat ≤ 90)

/-- ASCII upper-case letter, the class `[A-Z]` (code points 65-90). -/
def isUpperAscii (c : Char) : Bool :=
  65 ≤ c.toNat ∧ c.toNat ≤ 90

/-- `re.sub(r'[-_]', ' ', s)`. -/
def subDashUnderscore (s : List Char) : List Char :=
  s.map (fun c => if c = '-' ∨ c = '_' then ' ' else c)

/-- `re.sub(r'[^a-zA-Z\s]', '', s)`. -/
def keepLettersSpaces (s : List Char) : List Char :=
  s.filter (fun c => isAsciiLetter c ∨ isPySpace c)

/-- `str.title()`: a cased character is uppercased when the previous
character is not cased, lowercased otherwise.  After the preceding filter
the only cased characters are ASCII letters. -/
def pyTitle : Bool → List Char → List Char
  | _, [] => []
  | prevCased, c :: rest =>
      if isAsciiLetter c then
        (if prevCased then c.toLower else c.toUpper) :: pyTitle true rest
      else c :: pyTitle false rest

/-- `re.sub(r'\s+', ' ', s)`: replace each maximal whitespace run by one
space. -/
def collapseSpaces : List Char → List Char
  | [] => []
  | c :: rest =>
      if isPySpace c then ' ' :: collapseSpaces (rest.dropWhile isPySpace)
      else c :: collapseSpaces rest
  termination_by l => l.length
  decreasing_by
    · simp only [List.length_cons]
      exact Nat.lt_succ_of_le (List.dropWhile_sublist _).length_le
    · simp

/-- `str.strip()`. -/
def pyStrip (s : List Char) : List Char :=
  ((s.dropWhile isPySpace).reverse.dropWhile isPySpace).reverse

/-- `parse_handwriting` over the character list of the input string. -/
def parse_handwriting (s : List Char) : Option (List Char) :=
  let r := pyStrip (collapseSpaces (pyTitle false (keepLettersSpaces
    (subDashUnderscore s))))
  if r.length = 0 then none else some r

/-- The §3 write-time invariant as enforced by `create_entry`: unique entry
names, duplicate-free required-item names in recipes, non-negative
ingredient cook times. -/
def CatalogInv (cb : List CookEntry) : Prop :=
  (cb.map (fun e => e.name)).Nodup ∧
  (∀ e ∈ cb, e.type = "recipe" →
    (e.requiredItems.map (fun it => it.name)).Nodup) ∧
  (∀ e ∈ cb, e.type = "ingredient" → 0 ≤ e.cookTime)

/-- Every record's `type` tag is one of the two §3 variants. -/
def ValidTypes (cb : List CookEntry) : Prop :=
  ∀ e ∈ cb, e.type = "recipe" ∨ e.type = "ingredient"

/-- Every required-item quantity in the catalog is positive (§3). -/
def PosQuantities (cb : List CookEntry) : Prop :=
  ∀ e ∈ cb, ∀ it ∈ e.requiredItems, 1 ≤ it.quantity

/-- `n` names an ingredient record of `cb`. -/
def IngredientTyped (cb : List CookEntry) (n : String) : Prop :=
  ∃ e, look_for_item n cb = some e ∧ e.type = "ingredient"

/-- `n` names a recipe record of `cb`. -/
def RecipeTyped (cb : List CookEntry) (n : String) : Prop :=
  ∃ e, look_for_item n cb = some e ∧ e.type = "recipe"

/-- The catalog cook time recorded for `n` (0 when absent). -/
def unitCt (cb : List CookEntry) (n : String) : Int :=
  match look_for_item n cb with
  | some e => e.cookTime
  | none => 0

/-- The catalog of the shared-leaf test: Cake needs Flour and Dough,
Dough needs two Flour, Flour cooks in 1. -/
def catC1 : List CookEntry :=
  [ { type := "recipe", name := "Cake",
      requiredItems := [⟨"Flour", 1⟩, ⟨"Dough", 1⟩] },
    { type := "recipe", name := "Dough", requiredItems := [⟨"Flour", 2⟩] },
    { type := "ingredient", name := "Flour", cookTime := 1 } ]

/-- The two-recipe cycle: A needs B, B needs A. -/
def catCyc : List CookEntry :=
  [ { type := "recipe", name := "A", requiredItems := [⟨"B", 1⟩] },
    { type := "recipe", name := "B", requiredItems := [⟨"A", 1⟩] } ]

/-- A one-ingredient catalog used to probe the root checks. -/
def cat5 : List CookEntry :=
  [ { type := "ingredient", name := "Flour", cookTime := 1 } ]

/-- A well-formed ingredient request for the `/entry` endpoint. -/
def entFlour : CookEntry :=
  { type := "ingredient", name := "Flour", cookTime := 1 }

/-- A request whose `type` tag is neither `"recipe"` nor `"ingredient"`. -/
def entBadType : CookEntry :=
  { type := "soup", name := "x" }

/-- Recipe whose only required item is absent from the catalog. -/
def cat6a : List CookEntry :=
  [ { type := "recipe", name := "Cake", requiredItems := [⟨"Sugar", 1⟩] } ]

/-- Same shape as `cat6a` with a different absent name. -/
def cat6b : List CookEntry :=
  [ { type := "recipe", name := "Cake", requiredItems := [⟨"Salt", 1⟩] } ]

/-- `catC1` with the required items of `"Cake"` listed in the other
order — the same multiset of `(name, quantity)` pairs. -/
def catC1perm : List CookEntry :=
  [ { type := "recipe", name := "Cake",
      requiredItems := [⟨"Dough", 1⟩, ⟨"Flour", 1⟩] },
    { type := "recipe", name := "Dough", requiredItems := [⟨"Flour", 2⟩] },
    { type := "ingredient", name := "Flour", cookTime := 1 } ]

/-- `p` references `q` directly: `p` resolves to a recipe record among
whose required items `q` appears. -/
def RefEdge (cb : List CookEntry) (p q : String) : Prop :=
  ∃ e, look_for_item p cb = some e ∧ e.type = "recipe" ∧
    ∃ it ∈ e.requiredItems, it.name = q

/-- A reference chain of exactly `k` edges from `s` to `m`. -/
def PathN (cb : List CookEntry) : Nat → String → String → Prop
  | 0, s, m => s = m
  | k + 1, s, m => ∃ c, RefEdge cb s c ∧ PathN cb k c m

/-- The composition graph rooted at a recipe-record of `cb` has height at
most `k` below the name `c`: non-recipe names have any height, a recipe
name has height `k+1` when all its children have height `k`. -/
def heightLEb (cb : List CookEntry) : Nat → String → Bool
  | 0, c =>
      match look_for_item c cb with
      | some e => if e.type = "recipe" then false else true
      | none => true
  | k + 1, c =>
      match look_for_item c cb with
      | some e =>
          if e.type = "recipe" then
            e.requiredItems.all (fun it => heightLEb cb k it.name)
          else true
      | none => true

/-- Demand for the target `x` per unit of `c`, unfolded to depth `k`:
an ingredient contributes the indicator of being `x`, a recipe the
quantity-weighted sum over its required items. -/
def wIter (cb : List CookEntry) : Nat → String → String → Int
  | 0, x, c =>
      match look_for_item c cb with
      | some e =>
          if e.type = "ingredient" then (if c = x then 1 else 0) else 0
      | none => 0
  | k + 1, x, c =>
      match look_for_item c cb with
      | some e =>
          if e.type = "recipe" then
            (e.requiredItems.map
              (fun it => it.quantity * wIter cb k x it.name)).sum
          else if e.type = "ingredient" then (if c = x then 1 else 0)
          else 0
      | none => 0

/-- The `popped_item_quantity` of one loop step: the removed entry's
quantity, or 0 when the name was not in the dictionary. -/
def popQty (n : String) (ing : IngDict) : Int :=
  match (dictPop n ing).1 with
  | some info => info.quantity
  | none => 0

/-- Quantity-weighted sum of `g` over the entries of the `ingredients`
dictionary. -/
def weightSum (g : String → Int) (ing : IngDict) : Int :=
  (ing.map (fun p => p.2.quantity * g p.1)).sum

/-- Quantity recorded for `x` in a summary's ingredient list (0 when
absent). -/
def listQty : List (String × Int) → String → Int
  | [], _ => 0
  | (k, q) :: rest, x => if k = x then q else listQty rest x

/-- Two cookbook records that agree except for the order of their
required items. -/
def EntryPerm (e e2 : CookEntry) : Prop :=
  e.type = e2.type ∧ e.name = e2.name ∧ e.cookTime = e2.cookTime ∧
  e.requiredItems.Perm e2.requiredItems

/-- Invariant of the expansion loop, with the ghost set `X` of names
already expanded as recipes: dictionary keys are unique; quantities are
non-negative; every entry is still queued or has its catalog unit cook
time recorded; ingredient-typed entries have positive quantity; `X` holds
recipe-typed names whose ingredient children are all present and whose
recipe children are present or themselves expanded; queued names are
present or expanded; and zero-quantity recipe-typed entries are expanded. -/
def InvX (cb : List CookEntry) (X : List String) (queue : List String)
    (ing : IngDict) : Prop :=
  (ing.map Prod.fst).Nodup ∧
  (∀ p ∈ ing, 0 ≤ p.2.quantity) ∧
  (∀ p ∈ ing, p.1 ∈ queue ∨
    (∃ e, look_for_item p.1 cb = some e ∧ e.type = "ingredient" ∧
      p.2.unit_cook_time = e.cookTime)) ∧
  (∀ p ∈ ing, IngredientTyped cb p.1 → 1 ≤ p.2.quantity) ∧
  (∀ m ∈ X, RecipeTyped cb m) ∧
  (∀ m ∈ X, ∀ e, look_for_item m cb = some e → ∀ it ∈ e.requiredItems,
    (IngredientTyped cb it.name → it.name ∈ ing.map Prod.fst) ∧
    (RecipeTyped cb it.name → it.name ∈ ing.map Prod.fst ∨ it.name ∈ X)) ∧
  (∀ m ∈ queue, m ∈ ing.map Prod.fst ∨ m ∈ X) ∧
  (∀ p ∈ ing, RecipeTyped cb p.1 → p.2.quantity = 0 → p.1 ∈ X)

/-! ### Theorems -/

/-- **C1.** For the catalog `catC1` (Cake requires one Flour and one Dough,
Dough requires two Flour, Flour cooks in 1), the summary of `"Cake"`
succeeds with ingredient list `[("Flour", 3)]` and cook time 3: the demand
for the shared leaf Flour is the sum of the multiplier-weighted quantities
along both paths. -/
theorem C1_shared_leaf_accumulates :
    summary catC1 "Cake" 10 =
      some (.success ⟨"Cake", 3, [("Flour", 3)]⟩) := by
  rfl

/-- **C5 counterexample.** The code classifies a missing root and an
ingredient-typed root with one and the same response value
(`'Recipe not found'`, HTTP 400): the two failure kinds are not
distinguishable, contrary to the claim. -/
theorem C5_counterexample :
    summary cat5 "Flour" 10 = some (.badRequest "Recipe not found") ∧
    summary cat5 "Missing" 10 = some (.badRequest "Recipe not found") ∧
    summary cat5 "Flour" 10 = summary cat5 "Missing" 10 := by
  exact ⟨rfl, rfl, rfl⟩

/-- **C5 (amended).** Whenever the root name does not resolve to a recipe
record — absent from the catalog, or resolving to a non-recipe record —
the call fails with the single shared response
(`'Recipe not found'`, HTTP 400); the two cases are not distinguished. -/
theorem C5_single_error_for_bad_root (cb : List CookEntry) (root : String)
    (fuel : Nat)
    (h : look_for_item root cb = none ∨
      ∃ e, look_for_item root cb = some e ∧ e.type ≠ "recipe") :
    summary cb root fuel = some (.badRequest "Recipe not found") := by
  unfold summary
  rcases h with h | ⟨e, he, ht⟩
  · rw [h]
  · rw [he]
    simp [ht]

/-- Witness for `C5_single_error_for_bad_root` at the ingredient root
`"Flour"` of `cat5`. -/
theorem C5_single_error_for_bad_root_witness :
    summary cat5 "Flour" 3 = some (.badRequest "Recipe not found") :=
  C5_single_error_for_bad_root cat5 "Flour" 3
    (Or.inr ⟨{ type := "ingredient", name := "Flour", cookTime := 1 }, rfl,
      by decide⟩)

/-- **C4.** On the cyclic catalog `catCyc` (A requires B, B requires A) the
expansion loop never terminates: for every fuel bound the computation is
still running, so no `CyclicComposition`-style error (nor any response at
all) is ever produced.  This contradicts the required bounded-time cycle
rejection. -/
theorem C4_cycle_never_terminates (fuel : Nat) :
    summary catCyc "A" fuel = none := by
  have key : ∀ f : Nat,
      summaryLoop catCyc f ["A"] [("A", ⟨1, 0⟩)] = none ∧
      summaryLoop catCyc f ["B"] [("B", ⟨1, 0⟩)] = none := by
    intro f
    induction f with
    | zero => exact ⟨rfl, rfl⟩
    | succ n ih =>
        refine ⟨?_, ?_⟩
        · show summaryLoop catCyc n ["B"] [("B", ⟨1, 0⟩)] = none
          exact ih.2
        · show summaryLoop catCyc n ["A"] [("A", ⟨1, 0⟩)] = none
          exact ih.1
  show (match summaryLoop catCyc fuel ["A"] [("A", ⟨1, 0⟩)] with
    | none => none
    | some (.fail msg) => some (.badRequest msg)
    | some .crash => some Outcome.crash
    | some (.done ing) =>
        some (.success ⟨"A",
          (ing.map (fun p => p.2.quantity * p.2.unit_cook_time)).sum,
          ing.map (fun p => (p.1, p.2.quantity))⟩)) = none
  rw [(key fuel).1]

/-- **C9.** `create_entry` is atomic on failure: whenever a validation
check rejects the request, the stored cookbook is left exactly as it was;
the append happens only when every check passes. -/
theorem C9_create_entry_atomic (cb : List CookEntry) (d : CookEntry)
    (h : (create_entry cb d).1.isSome) : (create_entry cb d).2 = cb := by
  unfold create_entry at h ⊢
  split_ifs at h ⊢ <;> simp_all

/-- The set-size test of `create_entry` (`len(set(names)) == len(items)`)
recognises exactly the duplicate-free lists. -/
theorem dedup_length_eq_iff {l : List String} :
    l.dedup.length = l.length ↔ l.Nodup := by
  constructor
  · intro h
    have := List.Sublist.eq_of_length (List.dedup_sublist l) h
    rw [← this]
    exact List.nodup_dedup l
  · intro h
    rw [List.dedup_eq_self.mpr h]

/-- Specialisation of `dedup_length_eq_iff` to the required-item name list
compared against the item-list length, as written in the source. -/
theorem dedup_names_length_iff (l : List RequiredItem) :
    (l.map (fun it => it.name)).dedup.length = l.length ↔
      (l.map (fun it => it.name)).Nodup := by
  rw [show l.length = (l.map (fun it => it.name)).length from
    (List.length_map _ _).symm]
  exact dedup_length_eq_iff

/-- **C8.** Over any cookbook satisfying the §3 invariants, `create_entry`
rejects a request exactly when its type tag is invalid, it is an
ingredient with negative cook time, its name is already taken, or it is a
recipe with a duplicated required-item name; and the cookbook after the
call (unchanged on rejection, extended on acceptance) still satisfies the
§3 invariants. -/
theorem C8_create_entry_preserves_invariants (cb : List CookEntry)
    (d : CookEntry) (hinv : CatalogInv cb) :
    ((create_entry cb d).1.isSome ↔
      (¬(d.type = "recipe" ∨ d.type = "ingredient") ∨
        (d.type = "ingredient" ∧ d.cookTime < 0) ∨
        (∃ e ∈ cb, e.name = d.name) ∨
        (d.type = "recipe" ∧
          ¬(d.requiredItems.map (fun it => it.name)).Nodup))) ∧
    CatalogInv (create_entry cb d).2 := by
  by_cases c1 : d.type = "recipe" ∨ d.type = "ingredient"
  case neg =>
    rw [create_entry, if_pos c1]
    refine ⟨?_, hinv⟩
    simp only [Option.isSome_some, true_iff]
    exact Or.inl c1
  by_cases c2 : d.type = "ingredient" ∧ d.cookTime < 0
  case pos =>
    rw [create_entry, if_neg (not_not_intro c1), if_pos c2]
    refine ⟨?_, hinv⟩
    simp only [Option.isSome_some, true_iff]
    exact Or.inr (Or.inl c2)
  by_cases c3 : cb.any (fun e => e.name = d.name) = true
  case pos =>
    rw [create_entry, if_neg (not_not_intro c1), if_neg c2, if_pos c3]
    refine ⟨?_, hinv⟩
    simp only [Option.isSome_some, true_iff]
    refine Or.inr (Or.inr (Or.inl ?_))
    simpa using c3
  by_cases c4 : d.type = "recipe" ∧
      ((d.requiredItems.map (fun it => it.name)).dedup.length ≠
        d.requiredItems.length)
  case pos =>
    rw [create_entry, if_neg (not_not_intro c1), if_neg c2, if_neg c3,
      if_pos c4]
    refine ⟨?_, hinv⟩
    simp only [Option.isSome_some, true_iff]
    refine Or.inr (Or.inr (Or.inr ⟨c4.1, ?_⟩))
    intro hnd
    exact c4.2 ((dedup_names_length_iff _).mpr hnd)
  rw [create_entry, if_neg (not_not_intro c1), if_neg c2, if_neg c3,
    if_neg c4]
  constructor
  · simp only [Option.isSome_none, Bool.false_eq_true, false_iff]
    rintro (h | h | h | h)
    · exact h c1
    · exact c2 h
    · obtain ⟨e, he, hn⟩ := h
      exact c3 (List.any_eq_true.mpr ⟨e, he, by simpa using hn⟩)
    · exact c4 ⟨h.1, fun hlen => h.2 ((dedup_names_length_iff _).mp hlen)⟩
  · obtain ⟨hn, hr, hi⟩ := hinv
    refine ⟨?_, ?_, ?_⟩
    · rw [List.map_append, List.nodup_append]
      refine ⟨hn, by simp, ?_⟩
      intro a ha hb
      simp only [List.map_cons, List.map_nil, List.mem_singleton] at hb
      subst hb
      obtain ⟨e, he, hname⟩ := List.mem_map.mp ha
      exact c3 (List.any_eq_true.mpr ⟨e, he, by simpa using hname⟩)
    · intro e he ht
      rcases List.mem_append.mp he with he | he
      · exact hr e he ht
      · simp only [List.mem_singleton] at he
        subst he
        by_cases hd : (e.requiredItems.map (fun it => it.name)).Nodup
        · exact hd
        · exact absurd ⟨ht, fun hlen => hd ((dedup_names_length_iff _).mp hlen)⟩ c4
    · intro e he ht
      rcases List.mem_append.mp he with he | he
      · exact hi e he ht
      · simp only [List.mem_singleton] at he
        subst he
        by_contra hneg
        push_neg at hneg
        exact c2 ⟨ht, hneg⟩

/-- Witness for `C8_create_entry_preserves_invariants`: adding the Flour
ingredient to the empty cookbook. -/
theorem C8_create_entry_preserves_invariants_witness :
    ((create_entry [] entFlour).1.isSome ↔
      (¬(entFlour.type = "recipe" ∨ entFlour.type = "ingredient") ∨
        (entFlour.type = "ingredient" ∧ entFlour.cookTime < 0) ∨
        (∃ e ∈ ([] : List CookEntry), e.name = entFlour.name) ∨
        (entFlour.type = "recipe" ∧
          ¬(entFlour.requiredItems.map (fun it => it.name)).Nodup))) ∧
    CatalogInv (create_entry [] entFlour).2 :=
  C8_create_entry_preserves_invariants [] entFlour
    ⟨List.nodup_nil, by simp, by simp⟩

/-- Witness for `C9_create_entry_atomic`: an invalid-type request against
the empty cookbook is rejected and the cookbook stays empty. -/
theorem C9_create_entry_atomic_witness :
    (create_entry [] entBadType).1.isSome ∧
    (create_entry [] entBadType).2 = [] :=
  ⟨by decide, C9_create_entry_atomic [] entBadType (by decide)⟩

/-! #### Character-class facts for the Task 1 pipeline -/

/-- An ASCII letter is not whitespace. -/
theorem letter_not_pyspace {c : Char} (h : isAsciiLetter c = true) :
    isPySpace c = false := by
  simp only [isAsciiLetter, decide_eq_true_eq] at h
  simp only [isPySpace, decide_eq_true_eq]
  simp only [Bool.decide_or, Bool.or_eq_false_iff, decide_eq_false_iff_not]
  omega

/-- An ASCII upper-case letter is an ASCII letter. -/
theorem upper_is_letter {c : Char} (h : isUpperAscii c = true) :
    isAsciiLetter c = true := by
  simp only [isUpperAscii, decide_eq_true_eq] at h
  simp only [isAsciiLetter, decide_eq_true_eq]
  omega

/-- An ASCII upper-case letter is not the space character. -/
theorem upper_ne_space {c : Char} (h : isUpperAscii c = true) : c ≠ ' ' := by
  intro hc
  subst hc
  simp [isUpperAscii] at h

/-- Valid small code points survive the `Char.ofNat` round trip. -/
theorem char_toNat_ofNat {n : Nat} (h : n < 55296) :
    (Char.ofNat n).toNat = n := by
  have hv : Char.isValidCharNat n := Or.inl h
  rw [Char.ofNat, dif_pos hv]
  have h32 : n < 4294967296 := by omega
  simp [Char.ofNatAux, Char.toNat, UInt32.ofNat', UInt32.toNat,
    BitVec.toNat_ofNat, Nat.mod_eq_of_lt h32]

/-- Code point of `Char.toUpper`. -/
theorem toNat_toUpper (c : Char) :
    c.toUpper.toNat =
      if 97 ≤ c.toNat ∧ c.toNat ≤ 122 then c.toNat - 32 else c.toNat := by
  rw [Char.toUpper]
  split
  case isTrue h => exact char_toNat_ofNat (by omega)
  case isFalse h => rfl

/-- Code point of `Char.toLower`. -/
theorem toNat_toLower (c : Char) :
    c.toLower.toNat =
      if 65 ≤ c.toNat ∧ c.toNat ≤ 90 then c.toNat + 32 else c.toNat := by
  rw [Char.toLower]
  split
  case isTrue h => exact char_toNat_ofNat (by omega)
  case isFalse h => rfl

/-- Upper-casing an ASCII letter yields an ASCII upper-case letter. -/
theorem toUpper_upper {c : Char} (h : isAsciiLetter c = true) :
    isUpperAscii c.toUpper = true := by
  simp only [isAsciiLetter, decide_eq_true_eq] at h
  simp only [isUpperAscii, toNat_toUpper, decide_eq_true_eq]
  split <;> omega

/-- Upper-casing an ASCII letter yields an ASCII letter. -/
theorem toUpper_letter {c : Char} (h : isAsciiLetter c = true) :
    isAsciiLetter c.toUpper = true :=
  upper_is_letter (toUpper_upper h)

/-- Lower-casing an ASCII letter yields an ASCII letter. -/
theorem toLower_letter {c : Char} (h : isAsciiLetter c = true) :
    isAsciiLetter c.toLower = true := by
  simp only [isAsciiLetter, decide_eq_true_eq] at h
  simp only [isAsciiLetter, toNat_toLower, decide_eq_true_eq]
  split <;> omega

/-! #### Facts about `pyTitle` -/

/-- Unfolding `pyTitle` on a cons cell. -/
theorem pyTitle_cons (b : Bool) (c : Char) (rest : List Char) :
    pyTitle b (c :: rest) =
      if isAsciiLetter c then
        (if b then c.toLower else c.toUpper) :: pyTitle true rest
      else c :: pyTitle false rest := by
  rw [pyTitle]

/-- `str.title()` maps a letters-and-whitespace string to a
letters-and-whitespace string. -/
theorem pyTitle_classes {l : List Char}
    (h : ∀ c ∈ l, isAsciiLetter c = true ∨ isPySpace c = true) :
    ∀ b, ∀ c ∈ pyTitle b l, isAsciiLetter c = true ∨ isPySpace c = true := by
  induction l with
  | nil => intro b c hc; simp [pyTitle] at hc
  | cons c rest ih =>
      intro b d hd
      rw [pyTitle_cons] at hd
      by_cases hc : isAsciiLetter c = true
      · rw [if_pos hc] at hd
        rcases List.mem_cons.mp hd with h1 | h1
        · subst h1
          cases b with
          | true => exact Or.inl (toLower_letter hc)
          | false => exact Or.inl (toUpper_letter hc)
        · exact ih (fun e he => h e (List.mem_cons_of_mem _ he)) true d h1
      · rw [if_neg hc] at hd
        rcases List.mem_cons.mp hd with h1 | h1
        · subst h1
          exact h d (List.mem_cons_self _ _)
        · exact ih (fun e he => h e (List.mem_cons_of_mem _ he)) false d h1

/-- `str.title()` neither creates nor destroys ASCII letters. -/
theorem pyTitle_any_letter (l : List Char) :
    ∀ b, (pyTitle b l).any isAsciiLetter = l.any isAsciiLetter := by
  induction l with
  | nil => intro b; rfl
  | cons c rest ih =>
      intro b
      rw [pyTitle_cons]
      by_cases hc : isAsciiLetter c = true
      · rw [if_pos hc]
        cases b with
        | true =>
            simp [List.any_cons, hc, toLower_letter hc, ih true]
        | false =>
            simp [List.any_cons, hc, toUpper_letter hc, ih true]
      · rw [if_neg hc]
        simp [List.any_cons, ih false]

/-- Head of a titled list: the head of the input, case-adjusted. -/
theorem pyTitle_head (b : Bool) (l : List Char) :
    (pyTitle b l).head? =
      l.head?.map (fun c =>
        if isAsciiLetter c then (if b then c.toLower else c.toUpper)
        else c) := by
  cases l with
  | nil => rfl
  | cons c rest =>
      rw [pyTitle_cons]
      by_cases hc : isAsciiLetter c = true
      · rw [if_pos hc]; simp [hc]
      · rw [if_neg hc]; simp [hc]

/-- In a titled letters-and-whitespace list, any letter standing right
after whitespace is upper case. -/
theorem pyTitle_chain (l : List Char) :
    ∀ b, (pyTitle b l).Chain' (fun a d =>
      isPySpace a = true → isAsciiLetter d = true → isUpperAscii d = true) := by
  induction l with
  | nil => intro b; simp [pyTitle]
  | cons c rest ih =>
      intro b
      rw [pyTitle_cons]
      by_cases hc : isAsciiLetter c = true
      · rw [if_pos hc]
        rw [List.chain'_cons']
        refine ⟨?_, ih true⟩
        intro y _ hsp
        exfalso
        have hl : isAsciiLetter (if b then c.toLower else c.toUpper) = true := by
          cases b with
          | true => exact toLower_letter hc
          | false => exact toUpper_letter hc
        rw [letter_not_pyspace hl] at hsp
        exact Bool.false_ne_true hsp
      · rw [if_neg hc]
        rw [List.chain'_cons']
        refine ⟨?_, ih false⟩
        intro y hy _ hly
        rw [pyTitle_head] at hy
        cases rest with
        | nil => simp at hy
        | cons d rest2 =>
            have hy2 : (if isAsciiLetter d = true then
                (if (false : Bool) = true then d.toLower else d.toUpper)
                else d) = y := by simpa using hy
            by_cases hd : isAsciiLetter d = true
            · rw [if_pos hd] at hy2
              simp only [Bool.false_eq_true, if_false] at hy2
              subst hy2
              exact toUpper_upper hd
            · rw [if_neg hd] at hy2
              subst hy2
              exact absurd hly hd

/-- A titled list starting in word-start state has an upper-case letter
as its head whenever the head is a letter. -/
theorem pyTitle_strongHead (l : List Char) :
    ∀ d, (pyTitle false l).head? = some d → isAsciiLetter d = true →
      isUpperAscii d = true := by
  intro d hd hld
  rw [pyTitle_head] at hd
  cases l with
  | nil => simp at hd
  | cons c rest =>
      have hd2 : (if isAsciiLetter c = true then
          (if (false : Bool) = true then c.toLower else c.toUpper)
          else c) = d := by simpa using hd
      by_cases hc : isAsciiLetter c = true
      · rw [if_pos hc] at hd2
        simp only [Bool.false_eq_true, if_false] at hd2
        subst hd2
        exact toUpper_upper hc
      · rw [if_neg hc] at hd2
        subst hd2
        exact absurd hld hc

/-! #### Facts about `collapseSpaces` and `pyStrip` -/

/-- A character of the collapsed list is a space or a non-whitespace
character of the input. -/
theorem collapse_mem {l : List Char} :
    ∀ c ∈ collapseSpaces l, c = ' ' ∨ (c ∈ l ∧ isPySpace c = false) := by
  induction l using collapseSpaces.induct with
  | case1 => simp [collapseSpaces]
  | case2 c rest hsp ih =>
      intro d hd
      rw [collapseSpaces, if_pos hsp] at hd
      rcases List.mem_cons.mp hd with h | h
      · exact Or.inl h
      · rcases ih d h with h2 | ⟨h3, h4⟩
        · exact Or.inl h2
        · exact Or.inr ⟨List.mem_cons_of_mem _ ((List.dropWhile_sublist _).mem h3), h4⟩
  | case3 c rest hsp ih =>
      intro d hd
      rw [collapseSpaces, if_neg hsp] at hd
      rcases List.mem_cons.mp hd with h | h
      · subst h
        exact Or.inr ⟨List.mem_cons_self _ _, by simpa using hsp⟩
      · rcases ih d h with h2 | ⟨h3, h4⟩
        · exact Or.inl h2
        · exact Or.inr ⟨List.mem_cons_of_mem _ h3, h4⟩

/-- `dropWhile` keeps every element not satisfying the predicate. -/
theorem mem_dropWhile_of_not {p : Char → Bool} {l : List Char} {c : Char}
    (hc : c ∈ l) (hp : p c = false) : c ∈ l.dropWhile p := by
  have := List.takeWhile_append_dropWhile (p := p) (l := l)
  rw [← this] at hc
  rcases List.mem_append.mp hc with h | h
  · rw [List.mem_takeWhile_imp h] at hp
    exact absurd hp (by simp)
  · exact h

/-- Non-whitespace characters survive `collapseSpaces`. -/
theorem mem_collapse_of_not_pyspace {l : List Char} {c : Char}
    (hc : c ∈ l) (hp : isPySpace c = false) : c ∈ collapseSpaces l := by
  induction l using collapseSpaces.induct with
  | case1 => simp at hc
  | case2 a rest hsp ih =>
      rw [collapseSpaces, if_pos hsp]
      rcases List.mem_cons.mp hc with h | h
      · subst h
        rw [hsp] at hp
        exact absurd hp (by simp)
      · exact List.mem_cons_of_mem _ (ih (mem_dropWhile_of_not h hp))
  | case3 a rest hsp ih =>
      rw [collapseSpaces, if_neg hsp]
      rcases List.mem_cons.mp hc with h | h
      · subst h
        exact List.mem_cons_self _ _
      · exact List.mem_cons_of_mem _ (ih h)

/-- The collapsed list is empty exactly when the input is. -/
theorem collapse_eq_nil_iff {l : List Char} :
    collapseSpaces l = [] ↔ l = [] := by
  cases l with
  | nil => simp [collapseSpaces]
  | cons c rest =>
      rw [collapseSpaces]
      constructor
      · intro h
        split at h <;> simp at h
      · intro h
        simp at h

/-- Head of the collapsed list: the head of the input, whitespace mapped
to the space character. -/
theorem collapse_head (l : List Char) :
    (collapseSpaces l).head? =
      l.head?.map (fun c => if isPySpace c then ' ' else c) := by
  cases l with
  | nil => simp [collapseSpaces]
  | cons c rest =>
      rw [collapseSpaces]
      by_cases hc : isPySpace c = true
      · simp [hc]
      · simp [hc]

/-- The first element produced by `dropWhile` fails the predicate. -/
theorem head_dropWhile_not {p : Char → Bool} {l : List Char} {d : Char}
    (h : (l.dropWhile p).head? = some d) : p d = false := by
  induction l with
  | nil => simp [List.dropWhile] at h
  | cons c rest ih =>
      rw [List.dropWhile_cons] at h
      by_cases hc : p c = true
      · rw [if_pos hc] at h
        exact ih h
      · rw [if_neg hc] at h
        simp only [List.head?_cons, Option.some.injEq] at h
        subst h
        simpa using hc

/-- After whitespace (and a whitespace-only prefix), the first remaining
letter of a titled list is upper case. -/
theorem strongHead_dropWhile {l : List Char}
    (hch : l.Chain' (fun a d =>
      isPySpace a = true → isAsciiLetter d = true → isUpperAscii d = true))
    (hhd : ∀ d, l.head? = some d → isAsciiLetter d = true →
      isUpperAscii d = true) :
    ∀ d, (l.dropWhile isPySpace).head? = some d → isAsciiLetter d = true →
      isUpperAscii d = true := by
  induction l with
  | nil => intro d hd; simp [List.dropWhile] at hd
  | cons c rest ih =>
      intro d hd hld
      rw [List.dropWhile_cons] at hd
      by_cases hc : isPySpace c = true
      · rw [if_pos hc] at hd
        refine ih ((List.chain'_cons'.mp hch).2) ?_ d hd hld
        intro e he hle
        exact (List.chain'_cons'.mp hch).1 e he hc hle
      · rw [if_neg hc] at hd
        simp only [List.head?_cons, Option.some.injEq] at hd
        subst hd
        exact hhd _ rfl hld

/-- The collapsed form of a titled letters-and-whitespace list: every
character right after a space is an upper-case letter (in particular not
another space). -/
theorem collapse_chain {l : List Char}
    (h0 : ∀ c ∈ l, isAsciiLetter c = true ∨ isPySpace c = true)
    (hch : l.Chain' (fun a d =>
      isPySpace a = true → isAsciiLetter d = true → isUpperAscii d = true)) :
    (collapseSpaces l).Chain' (fun a b =>
      a = ' ' → isUpperAscii b = true ∧ b ≠ ' ') := by
  induction l using collapseSpaces.induct with
  | case1 => simp [collapseSpaces]
  | case2 c rest hsp ih =>
      rw [collapseSpaces, if_pos hsp]
      rw [List.chain'_cons']
      have hchrest : rest.Chain' (fun a d =>
          isPySpace a = true → isAsciiLetter d = true →
            isUpperAscii d = true) := (List.chain'_cons'.mp hch).2
      have hhdrest : ∀ d, rest.head? = some d → isAsciiLetter d = true →
          isUpperAscii d = true := by
        intro e he hle
        exact (List.chain'_cons'.mp hch).1 e he hsp hle
      constructor
      · intro y hy _
        rw [collapse_head] at hy
        cases hw : (rest.dropWhile isPySpace).head? with
        | none => rw [hw] at hy; simp at hy
        | some d =>
            rw [hw] at hy
            have hdns : isPySpace d = false := head_dropWhile_not hw
            have hy2 : (if isPySpace d = true then ' ' else d) = y := by
              simpa using hy
            rw [if_neg (by simp [hdns])] at hy2
            subst hy2
            have hdl : isAsciiLetter d = true := by
              have hdm : d ∈ rest.dropWhile isPySpace := by
                cases hrw : rest.dropWhile isPySpace with
                | nil => rw [hrw] at hw; simp at hw
                | cons a t =>
                    rw [hrw] at hw
                    simp only [List.head?_cons, Option.some.injEq] at hw
                    subst hw
                    exact List.mem_cons_self _ _
              rcases h0 d (List.mem_cons_of_mem _
                ((List.dropWhile_sublist _).mem hdm)) with h | h
              · exact h
              · rw [h] at hdns; exact absurd hdns (by simp)
            refine ⟨strongHead_dropWhile hchrest hhdrest d hw hdl, ?_⟩
            intro hde
            subst hde
            simp [isPySpace] at hdns
      · exact ih (fun e he => h0 e (List.mem_cons_of_mem _
            ((List.dropWhile_sublist _).mem he)))
          (List.Chain'.suffix hchrest (List.dropWhile_suffix _))
  | case3 c rest hsp ih =>
      rw [collapseSpaces, if_neg hsp]
      rw [List.chain'_cons']
      constructor
      · intro y _ hce
        subst hce
        exact absurd (by simp [isPySpace] : isPySpace ' ' = true) (by simpa using hsp)
      · exact ih (fun e he => h0 e (List.mem_cons_of_mem _ he))
          (List.chain'_cons'.mp hch).2

/-- `collapseSpaces` keeps an upper-case head upper case. -/
theorem collapse_strongHead {l : List Char}
    (hhd : ∀ d, l.head? = some d → isAsciiLetter d = true →
      isUpperAscii d = true) :
    ∀ d, (collapseSpaces l).head? = some d → isAsciiLetter d = true →
      isUpperAscii d = true := by
  intro d hd hld
  rw [collapse_head] at hd
  cases l with
  | nil => simp at hd
  | cons c rest =>
      have hd2 : (if isPySpace c = true then ' ' else c) = d := by
        simpa using hd
      by_cases hc : isPySpace c = true
      · rw [if_pos hc] at hd2
        subst hd2
        exact absurd hld (by simp [isAsciiLetter])
      · rw [if_neg hc] at hd2
        subst hd2
        exact hhd _ rfl hld

/-- `pyStrip` is a prefix of the front-stripped list. -/
theorem pyStrip_front (l : List Char) :
    pyStrip l <+: l.dropWhile isPySpace := by
  obtain ⟨t, ht⟩ :=
    List.dropWhile_suffix (l := (l.dropWhile isPySpace).reverse) isPySpace
  refine ⟨t.reverse, ?_⟩
  have h2 := congrArg List.reverse ht
  simpa [List.reverse_append] using h2

/-- Characters of the stripped list come from the input. -/
theorem mem_pyStrip {l : List Char} {c : Char} (h : c ∈ pyStrip l) :
    c ∈ l := by
  have h1 := (pyStrip_front l).mem h
  exact (List.dropWhile_sublist _).mem h1

/-- The stripped list is empty exactly when the input is whitespace-only. -/
theorem pyStrip_eq_nil_iff {l : List Char} :
    pyStrip l = [] ↔ ∀ c ∈ l, isPySpace c = true := by
  unfold pyStrip
  rw [List.reverse_eq_nil_iff, List.dropWhile_eq_nil_iff]
  constructor
  · intro h c hc
    by_cases hp : isPySpace c = true
    · exact hp
    · exact absurd (h c (List.mem_reverse.mpr
        (mem_dropWhile_of_not hc (by simpa using hp)))) (by simpa using hp)
  · intro h c hc
    exact h c ((List.dropWhile_sublist _).mem (List.mem_reverse.mp hc))

/-- `pyStrip` preserves any chain condition. -/
theorem chain_pyStrip {R : Char → Char → Prop} {l : List Char}
    (h : l.Chain' R) : (pyStrip l).Chain' R := by
  have h1 : (l.dropWhile isPySpace).Chain' R :=
    h.suffix (List.dropWhile_suffix _)
  obtain ⟨u, hu⟩ := pyStrip_front l
  rw [← hu] at h1
  exact (List.chain'_append.mp h1).1

/-- For a collapsed letters-and-spaces list with titled word starts, the
head of the stripped list is an upper-case letter. -/
theorem head_pyStrip_upper {x : List Char}
    (hcl : ∀ c ∈ x, isAsciiLetter c = true ∨ c = ' ')
    (hch : x.Chain' (fun a b => a = ' ' → isUpperAscii b = true ∧ b ≠ ' '))
    (hhd : ∀ d, x.head? = some d → isAsciiLetter d = true →
      isUpperAscii d = true) :
    ∀ d, (pyStrip x).head? = some d → isUpperAscii d = true := by
  intro d hd
  have hne : pyStrip x ≠ [] := by
    intro he
    rw [he] at hd
    exact absurd hd (by simp)
  have hhead : (x.dropWhile isPySpace).head? = some d := by
    obtain ⟨t, ht⟩ := pyStrip_front x
    rw [← ht]
    cases hps : pyStrip x with
    | nil => exact absurd hps hne
    | cons a l2 =>
        rw [hps] at hd
        simp only [List.head?_cons, Option.some.injEq] at hd
        subst hd
        simp
  cases x with
  | nil => simp [List.dropWhile] at hhead
  | cons c rest =>
      rw [List.dropWhile_cons] at hhead
      by_cases hc : isPySpace c = true
      · rw [if_pos hc] at hhead
        have hce : c = ' ' := by
          rcases hcl c (List.mem_cons_self _ _) with hl | hl
          · rw [letter_not_pyspace hl] at hc
            exact absurd hc (by simp)
          · exact hl
        cases rest with
        | nil => simp [List.dropWhile] at hhead
        | cons e rest2 =>
            have hre := (List.chain'_cons'.mp hch).1 e (by simp) hce
            have hens : isPySpace e = false :=
              letter_not_pyspace (upper_is_letter hre.1)
            rw [List.dropWhile_cons, if_neg (by simp [hens])] at hhead
            simp only [List.head?_cons, Option.some.injEq] at hhead
            subst hhead
            exact hre.1
      · rw [if_neg hc] at hhead
        simp only [List.head?_cons, Option.some.injEq] at hhead
        subst hhead
        rcases hcl c (List.mem_cons_self _ _) with hl | hl
        · exact hhd c rfl hl
        · subst hl
          exact absurd (by decide : isPySpace ' ' = true) (by simpa using hc)

/-- The last character of the stripped list is not whitespace. -/
theorem getLast_pyStrip {x : List Char} :
    ∀ d, (pyStrip x).getLast? = some d → isPySpace d = false := by
  intro d hd
  unfold pyStrip at hd
  rw [List.getLast?_reverse] at hd
  exact head_dropWhile_not hd

/-! #### Letter bookkeeping through the first two pipeline stages -/

/-- Replacing hyphens and underscores by spaces neither creates nor
destroys ASCII letters, character by character. -/
theorem sub_letter (c : Char) :
    isAsciiLetter (if c = '-' ∨ c = '_' then ' ' else c) = isAsciiLetter c := by
  by_cases h : c = '-' ∨ c = '_'
  · rw [if_pos h]
    rcases h with h | h <;> subst h <;> decide
  · rw [if_neg h]

/-- Stage 1 preserves the presence of ASCII letters. -/
theorem subDash_any_letter (s : List Char) :
    (subDashUnderscore s).any isAsciiLetter = s.any isAsciiLetter := by
  unfold subDashUnderscore
  rw [List.any_map]
  induction s with
  | nil => rfl
  | cons c rest ih => simp [List.any_cons, ih, Function.comp, sub_letter]

/-- Stage 2 preserves the presence of ASCII letters. -/
theorem filter_any_letter (u : List Char) :
    (keepLettersSpaces u).any isAsciiLetter = u.any isAsciiLetter := by
  unfold keepLettersSpaces
  induction u with
  | nil => rfl
  | cons c rest ih =>
      rw [List.filter_cons]
      by_cases hl : isAsciiLetter c = true
      · rw [if_pos (by simp [hl])]
        rw [List.any_cons, List.any_cons, ih]
      · by_cases hs : isPySpace c = true
        · rw [if_pos (by simp [hs])]
          rw [List.any_cons, List.any_cons, ih]
        · rw [if_neg (by simp [hl, hs])]
          rw [List.any_cons, ih,
            (by simpa using hl : isAsciiLetter c = false)]
          simp

/-- Characters surviving stage 2 are letters or whitespace. -/
theorem filter_classes (u : List Char) :
    ∀ c ∈ keepLettersSpaces u, isAsciiLetter c = true ∨ isPySpace c = true := by
  intro c hc
  unfold keepLettersSpaces at hc
  have := (List.mem_filter.mp hc).2
  simpa using this

/-- For a letters-and-whitespace list, the collapsed list is whitespace-only
exactly when the input has no letter. -/
theorem collapse_all_space_iff {t : List Char}
    (h0 : ∀ c ∈ t, isAsciiLetter c = true ∨ isPySpace c = true) :
    (∀ c ∈ collapseSpaces t, isPySpace c = true) ↔
      t.any isAsciiLetter = false := by
  constructor
  · intro h
    by_contra hq
    have hq2 : t.any isAsciiLetter = true := by
      revert hq
      cases t.any isAsciiLetter <;> simp
    obtain ⟨c, hc, hl⟩ := List.any_eq_true.mp hq2
    have hcm := mem_collapse_of_not_pyspace hc (letter_not_pyspace hl)
    have hsp := h c hcm
    rw [letter_not_pyspace hl] at hsp
    exact absurd hsp (by simp)
  · intro h c hc
    rcases collapse_mem c hc with rfl | ⟨hm, hp⟩
    · decide
    · rcases h0 c hm with hl | hs
      · exact absurd (List.any_eq_true.mpr ⟨c, hm, hl⟩) (by simp [h])
      · exact hs

/-- **C10.** `parse_handwriting` returns `None` exactly when the input
has no ASCII letter; otherwise the result is a non-empty string of ASCII
letters separated by single spaces — no leading or trailing whitespace,
no two adjacent spaces — whose first character, and every character
following a space, is an upper-case letter. -/
theorem C10_parse_handwriting (s : List Char) :
    (parse_handwriting s = none ↔ ∀ c ∈ s, isAsciiLetter c = false) ∧
    (∀ out, parse_handwriting s = some out →
      out ≠ [] ∧
      (∀ c ∈ out, isAsciiLetter c = true ∨ c = ' ') ∧
      (∀ d, out.head? = some d → isUpperAscii d = true) ∧
      out.getLast? ≠ some ' ' ∧
      out.Chain' (fun a b => a = ' ' → isUpperAscii b = true ∧ b ≠ ' ')) := by
  have hu0 : ∀ c ∈ keepLettersSpaces (subDashUnderscore s),
      isAsciiLetter c = true ∨ isPySpace c = true :=
    filter_classes (subDashUnderscore s)
  have ht0 : ∀ c ∈ pyTitle false (keepLettersSpaces (subDashUnderscore s)),
      isAsciiLetter c = true ∨ isPySpace c = true :=
    pyTitle_classes hu0 false
  have hx0 : ∀ c ∈ collapseSpaces (pyTitle false (keepLettersSpaces
      (subDashUnderscore s))), isAsciiLetter c = true ∨ c = ' ' := by
    intro c hc
    rcases collapse_mem c hc with rfl | ⟨hm, hp⟩
    · exact Or.inr rfl
    · rcases ht0 c hm with hl | hs
      · exact Or.inl hl
      · rw [hs] at hp
        exact absurd hp (by simp)
  have hchain := collapse_chain ht0
    (pyTitle_chain (keepLettersSpaces (subDashUnderscore s)) false)
  have hxhd := collapse_strongHead
    (pyTitle_strongHead (keepLettersSpaces (subDashUnderscore s)))
  have hany : (pyTitle false (keepLettersSpaces
        (subDashUnderscore s))).any isAsciiLetter = s.any isAsciiLetter := by
    rw [pyTitle_any_letter, filter_any_letter, subDash_any_letter]
  have hnil : pyStrip (collapseSpaces (pyTitle false (keepLettersSpaces
        (subDashUnderscore s)))) = [] ↔ ∀ c ∈ s, isAsciiLetter c = false := by
    rw [pyStrip_eq_nil_iff, collapse_all_space_iff ht0, hany]
    rw [List.any_eq_false]
    constructor
    · intro h c hc
      simpa using h c hc
    · intro h c hc
      simpa using h c hc
  have hparse : parse_handwriting s =
      if (pyStrip (collapseSpaces (pyTitle false (keepLettersSpaces
        (subDashUnderscore s))))).length = 0 then none
      else some (pyStrip (collapseSpaces (pyTitle false (keepLettersSpaces
        (subDashUnderscore s))))) := rfl
  constructor
  · rw [hparse]
    constructor
    · intro h
      by_cases hr : (pyStrip (collapseSpaces (pyTitle false (keepLettersSpaces
          (subDashUnderscore s))))).length = 0
      · exact hnil.mp (List.length_eq_zero.mp hr)
      · rw [if_neg hr] at h
        exact absurd h (by simp)
    · intro h
      rw [if_pos (by rw [List.length_eq_zero]; exact hnil.mpr h)]
  · intro out hout
    rw [hparse] at hout
    by_cases hr : (pyStrip (collapseSpaces (pyTitle false (keepLettersSpaces
        (subDashUnderscore s))))).length = 0
    · rw [if_pos hr] at hout
      exact absurd hout (by simp)
    · rw [if_neg hr] at hout
      obtain rfl := Option.some.inj hout
      refine ⟨?_, ?_, ?_, ?_, ?_⟩
      · intro hre
        rw [hre] at hr
        exact hr rfl
      · intro c hc
        exact hx0 c (mem_pyStrip hc)
      · exact head_pyStrip_upper hx0 hchain hxhd
      · intro hlast
        have := getLast_pyStrip _ hlast
        rw [(by decide : isPySpace ' ' = true)] at this
        exact absurd this (by simp)
      · exact chain_pyStrip hchain

/-- Witness for `C10_parse_handwriting`: the input `"a-b"` parses to
`"A B"`, which has all the stated shape properties. -/
theorem C10_parse_handwriting_witness :
    parse_handwriting ['a', '-', 'b'] = some ['A', ' ', 'B'] ∧
    (['A', ' ', 'B'] ≠ [] ∧
      (∀ c ∈ (['A', ' ', 'B'] : List Char),
        isAsciiLetter c = true ∨ c = ' ') ∧
      (∀ d, (['A', ' ', 'B'] : List Char).head? = some d →
        isUpperAscii d = true) ∧
      (['A', ' ', 'B'] : List Char).getLast? ≠ some ' ' ∧
      (['A', ' ', 'B'] : List Char).Chain' (fun a b =>
        a = ' ' → isUpperAscii b = true ∧ b ≠ ' ')) := by
  have h1 : pyTitle false (keepLettersSpaces (subDashUnderscore
      ['a', '-', 'b'])) = ['A', ' ', 'B'] := by decide
  have h2 : collapseSpaces ['A', ' ', 'B'] = ['A', ' ', 'B'] := by
    rw [collapseSpaces, if_neg (by decide)]
    rw [collapseSpaces, if_pos (by decide)]
    have hd : List.dropWhile isPySpace ['B'] = ['B'] := by decide
    rw [hd]
    rw [collapseSpaces, if_neg (by decide)]
    rw [collapseSpaces]
  have hp : parse_handwriting ['a', '-', 'b'] = some ['A', ' ', 'B'] := by
    show (if (pyStrip (collapseSpaces (pyTitle false (keepLettersSpaces
        (subDashUnderscore ['a', '-', 'b']))))).length = 0 then none
      else some (pyStrip (collapseSpaces (pyTitle false (keepLettersSpaces
        (subDashUnderscore ['a', '-', 'b'])))))) = some ['A', ' ', 'B']
    rw [h1, h2]
    decide
  exact ⟨hp, (C10_parse_handwriting ['a', '-', 'b']).2 _ hp⟩

/-! #### Cookbook lookup and dictionary-operation lemmas -/

/-- A found record belongs to the cookbook. -/
theorem look_mem {n : String} {cb : List CookEntry} {e : CookEntry}
    (h : look_for_item n cb = some e) : e ∈ cb := by
  induction cb with
  | nil => simp [look_for_item] at h
  | cons a rest ih =>
      rw [look_for_item] at h
      by_cases ha : a.name = n
      · rw [if_pos ha] at h
        obtain rfl := Option.some.inj h
        exact List.mem_cons_self _ _
      · rw [if_neg ha] at h
        exact List.mem_cons_of_mem _ (ih h)

/-- A found record carries the looked-up name. -/
theorem look_name {n : String} {cb : List CookEntry} {e : CookEntry}
    (h : look_for_item n cb = some e) : e.name = n := by
  induction cb with
  | nil => simp [look_for_item] at h
  | cons a rest ih =>
      rw [look_for_item] at h
      by_cases ha : a.name = n
      · rw [if_pos ha] at h
        obtain rfl := Option.some.inj h
        exact ha
      · rw [if_neg ha] at h
        exact ih h

/-- A name cannot be both ingredient-typed and recipe-typed. -/
theorem typed_disjoint {cb : List CookEntry} {n : String}
    (h1 : IngredientTyped cb n) (h2 : RecipeTyped cb n) : False := by
  obtain ⟨e1, he1, ht1⟩ := h1
  obtain ⟨e2, he2, ht2⟩ := h2
  rw [he1] at he2
  obtain rfl := Option.some.inj he2
  rw [ht1] at ht2
  exact absurd ht2 (by decide)

/-- A found dictionary value is an entry of the dictionary. -/
theorem dictFind_mem {n : String} {ing : IngDict} {v : IngInfo}
    (h : dictFind n ing = some v) : (n, v) ∈ ing := by
  induction ing with
  | nil => simp [dictFind] at h
  | cons p rest ih =>
      obtain ⟨k, w⟩ := p
      rw [dictFind] at h
      by_cases hk : k = n
      · rw [if_pos hk] at h
        obtain rfl := Option.some.inj h
        subst hk
        exact List.mem_cons_self _ _
      · rw [if_neg hk] at h
        exact List.mem_cons_of_mem _ (ih h)

/-- `dictFind` misses exactly the absent keys. -/
theorem dictFind_eq_none {n : String} {ing : IngDict} :
    dictFind n ing = none ↔ n ∉ ing.map Prod.fst := by
  induction ing with
  | nil => simp [dictFind]
  | cons p rest ih =>
      obtain ⟨k, w⟩ := p
      rw [dictFind]
      by_cases hk : k = n
      · rw [if_pos hk]
        simp [hk]
      · rw [if_neg hk]
        simp [ih, hk, Ne.symm hk]

/-- The popped value is the found value. -/
theorem dictPop_fst (n : String) (ing : IngDict) :
    (dictPop n ing).1 = dictFind n ing := by
  induction ing with
  | nil => rfl
  | cons p rest ih =>
      obtain ⟨k, w⟩ := p
      rw [dictPop, dictFind]
      by_cases hk : k = n
      · rw [if_pos hk, if_pos hk]
      · rw [if_neg hk, if_neg hk]
        exact ih

/-- What remains after a pop is a sublist of the dictionary. -/
theorem dictPop_sublist (n : String) (ing : IngDict) :
    (dictPop n ing).2.Sublist ing := by
  induction ing with
  | nil => simp [dictPop]
  | cons p rest ih =>
      obtain ⟨k, w⟩ := p
      rw [dictPop]
      by_cases hk : k = n
      · rw [if_pos hk]
        exact (List.sublist_cons_self _ _)
      · rw [if_neg hk]
        exact List.Sublist.cons₂ _ ih

/-- Keys other than the popped one survive the pop. -/
theorem mem_dictPop_keys {m n : String} {ing : IngDict}
    (hm : m ∈ ing.map Prod.fst) (hne : m ≠ n) :
    m ∈ (dictPop n ing).2.map Prod.fst := by
  induction ing with
  | nil => simp at hm
  | cons p rest ih =>
      obtain ⟨k, w⟩ := p
      simp only [List.map_cons, List.mem_cons] at hm
      rw [dictPop]
      by_cases hk : k = n
      · rw [if_pos hk]
        rcases hm with h | h
        · exact absurd (h.trans hk) hne
        · exact h
      · rw [if_neg hk]
        simp only [List.map_cons, List.mem_cons]
        rcases hm with h | h
        · exact Or.inl h
        · exact Or.inr (ih h)

/-- With unique keys, the popped key is gone. -/
theorem not_mem_dictPop_self {n : String} {ing : IngDict}
    (hnd : (ing.map Prod.fst).Nodup) :
    n ∉ (dictPop n ing).2.map Prod.fst := by
  induction ing with
  | nil => simp [dictPop]
  | cons p rest ih =>
      obtain ⟨k, w⟩ := p
      simp only [List.map_cons, List.nodup_cons] at hnd
      rw [dictPop]
      by_cases hk : k = n
      · rw [if_pos hk]
        subst hk
        exact hnd.1
      · rw [if_neg hk]
        simp only [List.map_cons, List.mem_cons]
        intro hmem
        rcases hmem with h | h
        · exact hk h.symm
        · exact ih hnd.2 h

/-- Appending a fresh entry adds its weighted quantity. -/
theorem weightSum_append_single (g : String → Int) (ing : IngDict)
    (n : String) (q u : Int) :
    weightSum g (ing ++ [(n, ⟨q, u⟩)]) = weightSum g ing + q * g n := by
  unfold weightSum
  rw [List.map_append, List.sum_append]
  simp

/-- Incrementing a present key adds the weighted increment. -/
theorem weightSum_inc {g : String → Int} {n : String} {ing : IngDict}
    {v : IngInfo} (h : dictFind n ing = some v) (d : Int) :
    weightSum g (dictIncQty n d ing) = weightSum g ing + d * g n := by
  induction ing with
  | nil => simp [dictFind] at h
  | cons p rest ih =>
      obtain ⟨k, w⟩ := p
      rw [dictFind] at h
      rw [dictIncQty]
      by_cases hk : k = n
      · rw [if_pos hk]
        subst hk
        unfold weightSum
        simp [add_mul]
        ring
      · rw [if_neg hk] at h ⊢
        unfold weightSum at ih ⊢
        simp only [List.map_cons, List.sum_cons]
        rw [ih h]
        ring

/-- Popping a key removes its weighted quantity. -/
theorem weightSum_pop (g : String → Int) (n : String) (ing : IngDict) :
    weightSum g (dictPop n ing).2 =
      weightSum g ing -
        (match (dictPop n ing).1 with
          | some v => v.quantity
          | none => 0) * g n := by
  induction ing with
  | nil => simp [dictPop, weightSum]
  | cons p rest ih =>
      obtain ⟨k, w⟩ := p
      rw [dictPop]
      by_cases hk : k = n
      · rw [if_pos hk]
        subst hk
        unfold weightSum
        simp only [List.map_cons, List.sum_cons]
        ring
      · rw [if_neg hk]
        unfold weightSum at ih ⊢
        simp only [List.map_cons, List.sum_cons]
        rw [ih]
        cases hfind : (dictPop n rest).1 with
        | none => simp [hfind]
        | some v =>
            simp [hfind]
            ring

/-- Setting a unit cook time does not change the weighted sum. -/
theorem weightSum_setUnit (g : String → Int) (n : String) (t : Int)
    (ing : IngDict) :
    weightSum g (dictSetUnit n t ing) = weightSum g ing := by
  induction ing with
  | nil => rfl
  | cons p rest ih =>
      obtain ⟨k, w⟩ := p
      rw [dictSetUnit]
      by_cases hk : k = n
      · rw [if_pos hk]
        unfold weightSum
        simp
      · rw [if_neg hk]
        unfold weightSum at ih ⊢
        simp only [List.map_cons, List.sum_cons]
        rw [ih]

/-- Incrementing preserves the key list. -/
theorem keys_dictIncQty (n : String) (d : Int) (ing : IngDict) :
    (dictIncQty n d ing).map Prod.fst = ing.map Prod.fst := by
  induction ing with
  | nil => rfl
  | cons p rest ih =>
      obtain ⟨k, w⟩ := p
      rw [dictIncQty]
      by_cases hk : k = n
      · rw [if_pos hk]
        simp
      · rw [if_neg hk]
        simp [ih]

/-- Setting a unit cook time preserves the key list. -/
theorem keys_dictSetUnit (n : String) (t : Int) (ing : IngDict) :
    (dictSetUnit n t ing).map Prod.fst = ing.map Prod.fst := by
  induction ing with
  | nil => rfl
  | cons p rest ih =>
      obtain ⟨k, w⟩ := p
      rw [dictSetUnit]
      by_cases hk : k = n
      · rw [if_pos hk]
        simp
      · rw [if_neg hk]
        simp [ih]

/-- Provenance of entries after an increment. -/
theorem mem_dictIncQty {n : String} {d : Int} {ing : IngDict}
    {p2 : String × IngInfo} (h : p2 ∈ dictIncQty n d ing) :
    ∃ p ∈ ing, p2.1 = p.1 ∧
      p2.2.unit_cook_time = p.2.unit_cook_time ∧
      (p2.2.quantity = p.2.quantity ∨
        (p2.1 = n ∧ p2.2.quantity = p.2.quantity + d)) := by
  induction ing with
  | nil => simp [dictIncQty] at h
  | cons p rest ih =>
      obtain ⟨k, w⟩ := p
      rw [dictIncQty] at h
      by_cases hk : k = n
      · rw [if_pos hk] at h
        rcases List.mem_cons.mp h with h1 | h1
        · subst h1
          exact ⟨(k, w), List.mem_cons_self _ _, rfl, rfl,
            Or.inr ⟨hk, rfl⟩⟩
        · exact ⟨p2, List.mem_cons_of_mem _ h1, rfl, rfl, Or.inl rfl⟩
      · rw [if_neg hk] at h
        rcases List.mem_cons.mp h with h1 | h1
        · subst h1
          exact ⟨(k, w), List.mem_cons_self _ _, rfl, rfl, Or.inl rfl⟩
        · obtain ⟨p, hp, h2, h3, h4⟩ := ih h1
          exact ⟨p, List.mem_cons_of_mem _ hp, h2, h3, h4⟩

/-- Provenance of entries after a unit-cook-time update. -/
theorem mem_dictSetUnit {n : String} {t : Int} {ing : IngDict}
    {p2 : String × IngInfo} (h : p2 ∈ dictSetUnit n t ing) :
    ∃ p ∈ ing, p2.1 = p.1 ∧ p2.2.quantity = p.2.quantity ∧
      (p2.2.unit_cook_time = p.2.unit_cook_time ∨
        (p2.1 = n ∧ p2.2.unit_cook_time = t)) := by
  induction ing with
  | nil => simp [dictSetUnit] at h
  | cons p rest ih =>
      obtain ⟨k, w⟩ := p
      rw [dictSetUnit] at h
      by_cases hk : k = n
      · rw [if_pos hk] at h
        rcases List.mem_cons.mp h with h1 | h1
        · subst h1
          exact ⟨(k, w), List.mem_cons_self _ _, rfl, rfl,
            Or.inr ⟨hk, rfl⟩⟩
        · exact ⟨p2, List.mem_cons_of_mem _ h1, rfl, rfl, Or.inl rfl⟩
      · rw [if_neg hk] at h
        rcases List.mem_cons.mp h with h1 | h1
        · subst h1
          exact ⟨(k, w), List.mem_cons_self _ _, rfl, rfl, Or.inl rfl⟩
        · obtain ⟨p, hp, h2, h3, h4⟩ := ih h1
          exact ⟨p, List.mem_cons_of_mem _ hp, h2, h3, h4⟩

/-! #### Facts about `processItems` -/

/-- The queue after a recipe expansion: the old queue followed by the
child names in order. -/
theorem processItems_fst (pq : Int) (items : List RequiredItem) :
    ∀ q ing, (processItems pq items q ing).1 =
      q ++ items.map (fun it => it.name) := by
  induction items with
  | nil => intro q ing; simp [processItems]
  | cons it rest ih =>
      intro q ing
      rw [processItems]
      cases hf : dictFind it.name ing with
      | some v => simp [ih, List.append_assoc]
      | none => simp [ih, List.append_assoc]

/-- Existing keys survive a recipe expansion. -/
theorem processItems_keys_mono (pq : Int) (items : List RequiredItem) :
    ∀ q ing m, m ∈ ing.map Prod.fst →
      m ∈ (processItems pq items q ing).2.map Prod.fst := by
  induction items with
  | nil => intro q ing m hm; simpa [processItems] using hm
  | cons it rest ih =>
      intro q ing m hm
      rw [processItems]
      cases hf : dictFind it.name ing with
      | some v =>
          exact ih _ _ m (by rw [keys_dictIncQty]; exact hm)
      | none =>
          exact ih _ _ m (by rw [List.map_append]; exact List.mem_append_left _ hm)

/-- Every processed child name ends up among the keys. -/
theorem processItems_child_keys (pq : Int) (items : List RequiredItem) :
    ∀ q ing, ∀ it ∈ items,
      it.name ∈ (processItems pq items q ing).2.map Prod.fst := by
  induction items with
  | nil => intro q ing it h; simp at h
  | cons it0 rest ih =>
      intro q ing it hit
      rw [processItems]
      rcases List.mem_cons.mp hit with h | h
      · subst h
        cases hf : dictFind it.name ing with
        | some v =>
            refine processItems_keys_mono pq rest _ _ _ ?_
            rw [keys_dictIncQty]
            have := dictFind_mem hf
            exact List.mem_map.mpr ⟨(it.name, v), this, rfl⟩
        | none =>
            refine processItems_keys_mono pq rest _ _ _ ?_
            rw [List.map_append]
            exact List.mem_append_right _ (by simp)
      · cases hf : dictFind it0.name ing with
        | some v => exact ih _ _ it h
        | none => exact ih _ _ it h

/-- Keys after an expansion come from the old keys or the child names. -/
theorem processItems_keys_sub (pq : Int) (items : List RequiredItem) :
    ∀ q ing m, m ∈ (processItems pq items q ing).2.map Prod.fst →
      m ∈ ing.map Prod.fst ∨ m ∈ items.map (fun it => it.name) := by
  induction items with
  | nil => intro q ing m hm; exact Or.inl (by simpa [processItems] using hm)
  | cons it rest ih =>
      intro q ing m hm
      rw [processItems] at hm
      cases hf : dictFind it.name ing with
      | some v =>
          rw [hf] at hm
          rcases ih _ _ m hm with h | h
          · rw [keys_dictIncQty] at h
            exact Or.inl h
          · exact Or.inr (by simp [h])
      | none =>
          rw [hf] at hm
          rcases ih _ _ m hm with h | h
          · rw [List.map_append] at h
            rcases List.mem_append.mp h with h2 | h2
            · exact Or.inl h2
            · simp only [List.map_cons, List.map_nil,
                List.mem_singleton] at h2
              exact Or.inr (by simp [h2])
          · exact Or.inr (by simp [h])

/-- Unique keys are preserved by an expansion. -/
theorem processItems_nodup (pq : Int) (items : List RequiredItem) :
    ∀ q ing, (ing.map Prod.fst).Nodup →
      ((processItems pq items q ing).2.map Prod.fst).Nodup := by
  induction items with
  | nil => intro q ing h; simpa [processItems] using h
  | cons it rest ih =>
      intro q ing h
      rw [processItems]
      cases hf : dictFind it.name ing with
      | some v =>
          exact ih _ _ (by rw [keys_dictIncQty]; exact h)
      | none =>
          refine ih _ _ ?_
          rw [List.map_append, List.nodup_append]
          refine ⟨h, by simp, ?_⟩
          intro a ha hb
          simp only [List.map_cons, List.map_nil, List.mem_singleton] at hb
          subst hb
          exact (dictFind_eq_none.mp hf) ha

/-- Weighted-sum bookkeeping of an expansion: the popped quantity is
distributed over the children with their required quantities. -/
theorem processItems_weightSum (g : String → Int) (pq : Int)
    (items : List RequiredItem) :
    ∀ q ing, weightSum g (processItems pq items q ing).2 =
      weightSum g ing +
        pq * (items.map (fun it => it.quantity * g it.name)).sum := by
  induction items with
  | nil => intro q ing; simp [processItems]
  | cons it rest ih =>
      intro q ing
      rw [processItems]
      cases hf : dictFind it.name ing with
      | some v =>
          dsimp only
          rw [ih, weightSum_inc hf]
          simp only [List.map_cons, List.sum_cons]
          ring
      | none =>
          dsimp only
          rw [ih, weightSum_append_single]
          simp only [List.map_cons, List.sum_cons]
          ring

/-- Quantities stay non-negative through an expansion. -/
theorem processItems_nonneg (pq : Int) (items : List RequiredItem)
    (hpq : 0 ≤ pq) (hv : ∀ it ∈ items, 1 ≤ it.quantity) :
    ∀ q ing, (∀ p ∈ ing, 0 ≤ p.2.quantity) →
      ∀ p ∈ (processItems pq items q ing).2, 0 ≤ p.2.quantity := by
  induction items with
  | nil => intro q ing h p hp; exact h p (by simpa [processItems] using hp)
  | cons it rest ih =>
      intro q ing h p hp
      rw [processItems] at hp
      have hd : 0 ≤ pq * it.quantity :=
        mul_nonneg hpq (le_trans zero_le_one (hv it (List.mem_cons_self _ _)))
      cases hf : dictFind it.name ing with
      | some v =>
          rw [hf] at hp
          refine ih (fun x hx => hv x (List.mem_cons_of_mem _ hx)) _ _ ?_ p hp
          intro p2 hp2
          obtain ⟨p0, hp0, _, _, hq⟩ := mem_dictIncQty hp2
          rcases hq with hq | ⟨_, hq⟩
          · rw [hq]; exact h p0 hp0
          · rw [hq]
            exact add_nonneg (h p0 hp0) hd
      | none =>
          rw [hf] at hp
          refine ih (fun x hx => hv x (List.mem_cons_of_mem _ hx)) _ _ ?_ p hp
          intro p2 hp2
          rcases List.mem_append.mp hp2 with h2 | h2
          · exact h p2 h2
          · simp only [List.mem_singleton] at h2
            subst h2
            exact hd

/-- Unit cook times through an expansion: an entry either keeps the key
and unit cook time of an old entry, or its key is a processed child. -/
theorem processItems_unit (pq : Int) (items : List RequiredItem) :
    ∀ q ing, ∀ p2 ∈ (processItems pq items q ing).2,
      (∃ p ∈ ing, p2.1 = p.1 ∧
        p2.2.unit_cook_time = p.2.unit_cook_time) ∨
      p2.1 ∈ items.map (fun it => it.name) := by
  induction items with
  | nil =>
      intro q ing p2 hp2
      exact Or.inl ⟨p2, by simpa [processItems] using hp2, rfl, rfl⟩
  | cons it rest ih =>
      intro q ing p2 hp2
      rw [processItems] at hp2
      cases hf : dictFind it.name ing with
      | some v =>
          rw [hf] at hp2
          rcases ih _ _ p2 hp2 with ⟨p, hp, h1, h2⟩ | h
          · obtain ⟨p0, hp0, h3, h4, _⟩ := mem_dictIncQty hp
            exact Or.inl ⟨p0, hp0, h1.trans h3, h2.trans h4⟩
          · exact Or.inr (by simp [h])
      | none =>
          rw [hf] at hp2
          rcases ih _ _ p2 hp2 with ⟨p, hp, h1, h2⟩ | h
          · rcases List.mem_append.mp hp with h3 | h3
            · exact Or.inl ⟨p, h3, h1, h2⟩
            · simp only [List.mem_singleton] at h3
              subst h3
              exact Or.inr (by simp [h1])
          · exact Or.inr (by simp [h])

/-- Positive quantities of ingredient-typed entries are preserved: with a
zero popped quantity no new ingredient-typed key can appear (its key is
already present), and with a positive one every written quantity is
positive. -/
theorem processItems_pos (cb : List CookEntry) (pq : Int)
    (items : List RequiredItem) (hpq : 0 ≤ pq)
    (hv : ∀ it ∈ items, 1 ≤ it.quantity) :
    ∀ q ing,
      (∀ p ∈ ing, 0 ≤ p.2.quantity) →
      (∀ p ∈ ing, IngredientTyped cb p.1 → 1 ≤ p.2.quantity) →
      (pq = 0 → ∀ it ∈ items, IngredientTyped cb it.name →
        it.name ∈ ing.map Prod.fst) →
      ∀ p2 ∈ (processItems pq items q ing).2,
        IngredientTyped cb p2.1 → 1 ≤ p2.2.quantity := by
  induction items with
  | nil =>
      intro q ing _ h7 _ p2 hp2
      exact h7 p2 (by simpa [processItems] using hp2)
  | cons it rest ih =>
      intro q ing h0 h7 hz p2 hp2
      rw [processItems] at hp2
      cases hf : dictFind it.name ing with
      | some v =>
          rw [hf] at hp2
          refine ih (fun x hx => hv x (List.mem_cons_of_mem _ hx)) _ _
            ?_ ?_ ?_ p2 hp2
          · intro p3 hp3
            obtain ⟨p0, hp0, _, _, hq⟩ := mem_dictIncQty hp3
            rcases hq with hq | ⟨_, hq⟩
            · rw [hq]; exact h0 p0 hp0
            · rw [hq]
              exact add_nonneg (h0 p0 hp0) (mul_nonneg hpq
                (le_trans zero_le_one (hv it (List.mem_cons_self _ _))))
          · intro p3 hp3 htyped
            obtain ⟨p0, hp0, hk, _, hq⟩ := mem_dictIncQty hp3
            rcases hq with hq | ⟨_, hq⟩
            · rw [hq]; exact h7 p0 hp0 (hk ▸ htyped)
            · rw [hq]
              exact le_trans (h7 p0 hp0 (hk ▸ htyped))
                (le_add_of_nonneg_right (mul_nonneg hpq
                  (le_trans zero_le_one (hv it (List.mem_cons_self _ _)))))
          · intro hpz it2 hit2 htyped
            rw [keys_dictIncQty]
            exact hz hpz it2 (List.mem_cons_of_mem _ hit2) htyped
      | none =>
          rw [hf] at hp2
          rcases le_or_lt 1 pq with hge | hlt
          · refine ih (fun x hx => hv x (List.mem_cons_of_mem _ hx)) _ _
              ?_ ?_ ?_ p2 hp2
            · intro p3 hp3
              rcases List.mem_append.mp hp3 with h2 | h2
              · exact h0 p3 h2
              · simp only [List.mem_singleton] at h2
                subst h2
                exact mul_nonneg hpq (le_trans zero_le_one
                  (hv it (List.mem_cons_self _ _)))
            · intro p3 hp3 htyped
              rcases List.mem_append.mp hp3 with h2 | h2
              · exact h7 p3 h2 htyped
              · simp only [List.mem_singleton] at h2
                subst h2
                have hv1 := hv it (List.mem_cons_self _ _)
                show (1 : Int) ≤ pq * it.quantity
                nlinarith
            · intro hpz
              exact absurd hpz (by omega)
          · have hpz : pq = 0 := by omega
            by_cases htyped : IngredientTyped cb it.name
            · exact absurd (hz hpz it (List.mem_cons_self _ _) htyped)
                (dictFind_eq_none.mp hf)
            · refine ih (fun x hx => hv x (List.mem_cons_of_mem _ hx)) _ _
                ?_ ?_ ?_ p2 hp2
              · intro p3 hp3
                rcases List.mem_append.mp hp3 with h2 | h2
                · exact h0 p3 h2
                · simp only [List.mem_singleton] at h2
                  subst h2
                  simp [hpz]
              · intro p3 hp3 ht3
                rcases List.mem_append.mp hp3 with h2 | h2
                · exact h7 p3 h2 ht3
                · simp only [List.mem_singleton] at h2
                  subst h2
                  exact absurd ht3 htyped
              · intro _ it2 hit2 ht2
                rw [List.map_append]
                exact List.mem_append_left _
                  (hz hpz it2 (List.mem_cons_of_mem _ hit2) ht2)

/-- Zero-quantity recipe-typed entries after an expansion all lie in the
ghost set `Y`: a zero can only be written when the popped quantity was
zero, and then the child's key was either already a zero entry or is
covered by the freshness hypothesis. -/
theorem processItems_zero_recipe (cb : List CookEntry) (Y : List String)
    (pq : Int) (items : List RequiredItem) (hpq : 0 ≤ pq)
    (hv : ∀ it ∈ items, 1 ≤ it.quantity) :
    ∀ q ing,
      (∀ p ∈ ing, 0 ≤ p.2.quantity) →
      (∀ p ∈ ing, RecipeTyped cb p.1 → p.2.quantity = 0 → p.1 ∈ Y) →
      (pq = 0 → ∀ it ∈ items, RecipeTyped cb it.name →
        it.name ∉ ing.map Prod.fst → it.name ∈ Y) →
      ∀ p2 ∈ (processItems pq items q ing).2,
        RecipeTyped cb p2.1 → p2.2.quantity = 0 → p2.1 ∈ Y := by
  induction items with
  | nil =>
      intro q ing _ h3 _ p2 hp2
      exact h3 p2 (by simpa [processItems] using hp2)
  | cons it rest ih =>
      intro q ing h0 h3 hz p2 hp2
      rw [processItems] at hp2
      have hd : 0 ≤ pq * it.quantity :=
        mul_nonneg hpq (le_trans zero_le_one (hv it (List.mem_cons_self _ _)))
      cases hf : dictFind it.name ing with
      | some v =>
          rw [hf] at hp2
          refine ih (fun x hx => hv x (List.mem_cons_of_mem _ hx)) _ _
            ?_ ?_ ?_ p2 hp2
          · intro p3 hp3
            obtain ⟨p0, hp0, _, _, hq⟩ := mem_dictIncQty hp3
            rcases hq with hq | ⟨_, hq⟩
            · rw [hq]; exact h0 p0 hp0
            · rw [hq]; exact add_nonneg (h0 p0 hp0) hd
          · intro p3 hp3 htyped hq0
            obtain ⟨p0, hp0, hk, _, hq⟩ := mem_dictIncQty hp3
            rcases hq with hq | ⟨_, hq⟩
            · rw [hk] at htyped ⊢
              exact h3 p0 hp0 htyped (by rw [← hq]; exact hq0)
            · rw [hk] at htyped ⊢
              have h1 : 0 ≤ p0.2.quantity := h0 p0 hp0
              have h2 : p0.2.quantity = 0 := by
                rw [hq] at hq0
                omega
              exact h3 p0 hp0 htyped h2
          · intro hpz it2 hit2 ht2 hnk
            rw [keys_dictIncQty] at hnk
            exact hz hpz it2 (List.mem_cons_of_mem _ hit2) ht2 hnk
      | none =>
          rw [hf] at hp2
          refine ih (fun x hx => hv x (List.mem_cons_of_mem _ hx)) _ _
            ?_ ?_ ?_ p2 hp2
          · intro p3 hp3
            rcases List.mem_append.mp hp3 with h2 | h2
            · exact h0 p3 h2
            · simp only [List.mem_singleton] at h2
              subst h2
              exact hd
          · intro p3 hp3 htyped hq0
            rcases List.mem_append.mp hp3 with h2 | h2
            · exact h3 p3 h2 htyped hq0
            · simp only [List.mem_singleton] at h2
              subst h2
              have hq1 : pq * it.quantity = 0 := hq0
              have hpz : pq = 0 := by
                rcases mul_eq_zero.mp hq1 with h | h
                · exact h
                · have := hv it (List.mem_cons_self _ _)
                  omega
              exact hz hpz it (List.mem_cons_self _ _) htyped
                (dictFind_eq_none.mp hf)
          · intro hpz it2 hit2 ht2 hnk
            rw [List.map_append] at hnk
            exact hz hpz it2 (List.mem_cons_of_mem _ hit2) ht2
              (fun hm => hnk (List.mem_append_left _ hm))

/-! #### The generic loop-invariant principle -/

/-- Any predicate on (queue, dictionary) preserved by the three loop
branches holds for the final dictionary of a completed run. -/
theorem summaryLoop_invariant (cb : List CookEntry)
    (P : List String → IngDict → Prop)
    (hrec : ∀ n rest ing e, look_for_item n cb = some e →
      e.type = "recipe" → P (n :: rest) ing →
      P (processItems (popQty n ing) e.requiredItems rest (dictPop n ing).2).1
        (processItems (popQty n ing) e.requiredItems rest (dictPop n ing).2).2)
    (hing : ∀ n rest ing e v, look_for_item n cb = some e →
      e.type ≠ "recipe" → e.type = "ingredient" → dictFind n ing = some v →
      P (n :: rest) ing → P rest (dictSetUnit n e.cookTime ing))
    (hother : ∀ n rest ing e, look_for_item n cb = some e →
      e.type ≠ "recipe" → e.type ≠ "ingredient" →
      P (n :: rest) ing → P rest ing) :
    ∀ fuel q ing r, P q ing →
      summaryLoop cb fuel q ing = some (.done r) → P [] r := by
  intro fuel
  induction fuel with
  | zero =>
      intro q ing r hP hdone
      cases q with
      | nil =>
          obtain rfl : ing = r := by
            simpa [summaryLoop] using hdone
          exact hP
      | cons n rest => simp [summaryLoop] at hdone
  | succ f ih =>
      intro q ing r hP hdone
      cases q with
      | nil =>
          obtain rfl : ing = r := by
            simpa [summaryLoop] using hdone
          exact hP
      | cons n rest =>
          rw [summaryLoop] at hdone
          cases hlook : look_for_item n cb with
          | none =>
              rw [hlook] at hdone
              simp at hdone
          | some e =>
              rw [hlook] at hdone
              dsimp only at hdone
              by_cases ht : e.type = "recipe"
              · rw [if_pos ht] at hdone
                exact ih _ _ r (hrec n rest ing e hlook ht hP) hdone
              · rw [if_neg ht] at hdone
                by_cases ht2 : e.type = "ingredient"
                · rw [if_pos ht2] at hdone
                  cases hfind : dictFind n ing with
                  | none =>
                      rw [hfind] at hdone
                      simp at hdone
                  | some v =>
                      rw [hfind] at hdone
                      exact ih _ _ r
                        (hing n rest ing e v hlook ht ht2 hfind hP) hdone
                · rw [if_neg ht2] at hdone
                  exact ih _ _ r (hother n rest ing e hlook ht ht2 hP) hdone

/-- With unique keys, a unit-cook-time update leaves every other entry
unchanged and rewrites exactly the entry at the given key. -/
theorem mem_dictSetUnit_nodup {n : String} {t : Int} {ing : IngDict}
    (hnd : (ing.map Prod.fst).Nodup) {p2 : String × IngInfo}
    (h : p2 ∈ dictSetUnit n t ing) :
    (p2 ∈ ing ∧ p2.1 ≠ n) ∨
      (∃ v, (n, v) ∈ ing ∧ p2 = (n, ⟨v.quantity, t⟩)) := by
  induction ing with
  | nil => simp [dictSetUnit] at h
  | cons p rest ih =>
      obtain ⟨k, w⟩ := p
      simp only [List.map_cons, List.nodup_cons] at hnd
      rw [dictSetUnit] at h
      by_cases hk : k = n
      · rw [if_pos hk] at h
        subst hk
        rcases List.mem_cons.mp h with h1 | h1
        · exact Or.inr ⟨w, List.mem_cons_self _ _, h1⟩
        · refine Or.inl ⟨List.mem_cons_of_mem _ h1, ?_⟩
          intro he
          exact hnd.1 (he ▸ List.mem_map.mpr ⟨p2, h1, rfl⟩)
      · rw [if_neg hk] at h
        rcases List.mem_cons.mp h with h1 | h1
        · subst h1
          exact Or.inl ⟨List.mem_cons_self _ _, hk⟩
        · rcases ih hnd.2 h1 with ⟨h2, h3⟩ | ⟨v, h2, h3⟩
          · exact Or.inl ⟨List.mem_cons_of_mem _ h2, h3⟩
          · exact Or.inr ⟨v, List.mem_cons_of_mem _ h2, h3⟩

/-- Inversion of a successful `/summary` call: the root resolves to a
recipe record, the loop completes, and the response is assembled from the
final dictionary. -/
theorem summary_success_inv {cb : List CookEntry} {root : String}
    {fuel : Nat} {S : Summary}
    (hs : summary cb root fuel = some (.success S)) :
    ∃ target r, look_for_item root cb = some target ∧
      target.type = "recipe" ∧
      summaryLoop cb fuel [target.name] [(target.name, ⟨1, 0⟩)] =
        some (.done r) ∧
      S = ⟨root, (r.map (fun p => p.2.quantity * p.2.unit_cook_time)).sum,
        r.map (fun p => (p.1, p.2.quantity))⟩ := by
  unfold summary at hs
  cases hlook : look_for_item root cb with
  | none =>
      rw [hlook] at hs
      simp at hs
  | some target =>
      rw [hlook] at hs
      dsimp only at hs
      by_cases ht : target.type = "recipe"
      · rw [if_neg (by simpa using ht)] at hs
        cases hloop : summaryLoop cb fuel [target.name]
            [(target.name, ⟨1, 0⟩)] with
        | none =>
            rw [hloop] at hs
            simp at hs
        | some lr =>
            rw [hloop] at hs
            cases lr with
            | fail msg => simp at hs
            | crash => simp at hs
            | done r =>
                refine ⟨target, r, rfl, ht, hloop, ?_⟩
                simp only [Option.some.injEq] at hs
                cases hs
                rfl
      · rw [if_pos (by simpa using ht)] at hs
        simp at hs

/-- Completion of the loop under the light invariant (unique keys, and
every entry still queued or with its catalog unit cook time recorded):
in the final dictionary every entry names an ingredient record and
carries its catalog cook time. -/
theorem loop_unit_recorded (cb : List CookEntry) (hv : ValidTypes cb) :
    ∀ fuel q ing r,
      (ing.map Prod.fst).Nodup →
      (∀ p ∈ ing, p.1 ∈ q ∨
        (∃ e, look_for_item p.1 cb = some e ∧ e.type = "ingredient" ∧
          p.2.unit_cook_time = e.cookTime)) →
      summaryLoop cb fuel q ing = some (.done r) →
      (r.map Prod.fst).Nodup ∧
      ∀ p ∈ r, ∃ e, look_for_item p.1 cb = some e ∧
        e.type = "ingredient" ∧ p.2.unit_cook_time = e.cookTime := by
  intro fuel q ing r hnd hI1 hdone
  have hfin := summaryLoop_invariant cb
    (fun q ing => (ing.map Prod.fst).Nodup ∧
      ∀ p ∈ ing, p.1 ∈ q ∨
        (∃ e, look_for_item p.1 cb = some e ∧ e.type = "ingredient" ∧
          p.2.unit_cook_time = e.cookTime))
    ?_ ?_ ?_ fuel q ing r ⟨hnd, hI1⟩ hdone
  · exact ⟨hfin.1, fun p hp => (hfin.2 p hp).resolve_left (by simp)⟩
  · intro n rest ing2 e hlook ht hP
    obtain ⟨hnd2, h12⟩ := hP
    have hnd3 : ((dictPop n ing2).2.map Prod.fst).Nodup :=
      hnd2.sublist ((dictPop_sublist n ing2).map Prod.fst)
    refine ⟨processItems_nodup _ _ _ _ hnd3, ?_⟩
    intro p2 hp2
    rw [processItems_fst]
    rcases processItems_unit _ _ _ _ p2 hp2 with ⟨p, hp, hk, hu⟩ | h
    · have hpm : p ∈ ing2 := (dictPop_sublist n ing2).mem hp
      have hpne : p.1 ≠ n := by
        intro he
        exact not_mem_dictPop_self hnd2
          (he ▸ List.mem_map.mpr ⟨p, hp, rfl⟩)
      rcases h12 p hpm with hq | ⟨e2, he2, het2, hu2⟩
      · rcases List.mem_cons.mp hq with h1 | h1
        · exact absurd h1 hpne
        · exact Or.inl (hk ▸ List.mem_append_left _ h1)
      · exact Or.inr ⟨e2, hk ▸ he2, het2, hu.trans hu2⟩
    · exact Or.inl (List.mem_append_right _ h)
  · intro n rest ing2 e v hlook ht ht2 hfind hP
    obtain ⟨hnd2, h12⟩ := hP
    refine ⟨by rw [keys_dictSetUnit]; exact hnd2, ?_⟩
    intro p2 hp2
    rcases mem_dictSetUnit_nodup hnd2 hp2 with ⟨hmem, hne⟩ | ⟨w, hw, he⟩
    · rcases h12 p2 hmem with hq | hrec
      · rcases List.mem_cons.mp hq with h1 | h1
        · exact absurd h1 hne
        · exact Or.inl h1
      · exact Or.inr hrec
    · refine Or.inr ⟨e, ?_, ht2, ?_⟩
      · rw [he]
        exact hlook
      · rw [he]
  · intro n rest ing2 e hlook ht ht2 _
    rcases hv e (look_mem hlook) with h | h
    · exact absurd h ht
    · exact absurd h ht2

/-- **C2.** Whenever a `/summary` call succeeds, its cook time equals the
sum over the returned ingredient list of each quantity times that name's
catalog cook time, and every returned name resolves to an ingredient
record of the catalog (so its unit cook time is recorded). -/
theorem C2_cooktime_weighted_sum (cb : List CookEntry) (root : String)
    (fuel : Nat) (S : Summary) (hv : ValidTypes cb)
    (hs : summary cb root fuel = some (.success S)) :
    S.cookTime = (S.ingredients.map (fun p => p.2 * unitCt cb p.1)).sum ∧
    ∀ p ∈ S.ingredients, IngredientTyped cb p.1 := by
  obtain ⟨target, r, hlook, ht, hloop, hS⟩ := summary_success_inv hs
  have hfin := loop_unit_recorded cb hv fuel [target.name]
    [(target.name, ⟨1, 0⟩)] r (by simp) (by simp) hloop
  subst hS
  constructor
  · show (r.map (fun p => p.2.quantity * p.2.unit_cook_time)).sum = _
    dsimp only
    rw [List.map_map]
    apply congrArg List.sum
    apply List.map_congr_left
    intro p hp
    obtain ⟨e, he, _, hu⟩ := hfin.2 p hp
    simp only [Function.comp_apply, unitCt, he, hu]
  · intro p hp
    dsimp only at hp
    obtain ⟨p0, hp0, hpe⟩ := List.mem_map.mp hp
    obtain ⟨e, he, het, _⟩ := hfin.2 p0 hp0
    exact ⟨e, by rw [← hpe]; exact he, het⟩

/-- The popped quantity is non-negative when all stored quantities are. -/
theorem popQty_nonneg {n : String} {ing : IngDict}
    (h5 : ∀ p ∈ ing, 0 ≤ p.2.quantity) : 0 ≤ popQty n ing := by
  unfold popQty
  rw [dictPop_fst]
  cases hfind : dictFind n ing with
  | none => simp
  | some v => exact h5 (n, v) (dictFind_mem hfind)

/-- One recipe step of the loop preserves `InvX`, adding the expanded
name to the ghost set. -/
theorem invX_step_recipe (cb : List CookEntry) (hq : PosQuantities cb)
    {n : String} {rest : List String} {ing2 : IngDict} {X : List String}
    {e : CookEntry} (hlook : look_for_item n cb = some e)
    (ht : e.type = "recipe") (hInv : InvX cb X (n :: rest) ing2) :
    InvX cb (n :: X)
      (processItems (popQty n ing2) e.requiredItems rest
        (dictPop n ing2).2).1
      (processItems (popQty n ing2) e.requiredItems rest
        (dictPop n ing2).2).2 := by
  obtain ⟨hnd, h5, h1, h7, hXt, hG1, hG2, hG3⟩ := hInv
  have hrecTy : RecipeTyped cb n := ⟨e, hlook, ht⟩
  have hvItems : ∀ it ∈ e.requiredItems, 1 ≤ it.quantity :=
    hq e (look_mem hlook)
  have hpq : 0 ≤ popQty n ing2 := popQty_nonneg h5
  have hzero : popQty n ing2 = 0 → n ∈ X := by
    unfold popQty
    rw [dictPop_fst]
    cases hfind : dictFind n ing2 with
    | none =>
        intro _
        rcases hG2 n (List.mem_cons_self _ _) with h | h
        · exact absurd h (dictFind_eq_none.mp hfind)
        · exact h
    | some v =>
        intro h0
        exact hG3 (n, v) (dictFind_mem hfind) hrecTy h0
  have hnd1 : ((dictPop n ing2).2.map Prod.fst).Nodup :=
    hnd.sublist ((dictPop_sublist n ing2).map Prod.fst)
  have h51 : ∀ p ∈ (dictPop n ing2).2, 0 ≤ p.2.quantity :=
    fun p hp => h5 p ((dictPop_sublist n ing2).mem hp)
  have h71 : ∀ p ∈ (dictPop n ing2).2, IngredientTyped cb p.1 →
      1 ≤ p.2.quantity :=
    fun p hp => h7 p ((dictPop_sublist n ing2).mem hp)
  have hzIng : popQty n ing2 = 0 → ∀ it ∈ e.requiredItems,
      IngredientTyped cb it.name →
      it.name ∈ (dictPop n ing2).2.map Prod.fst := by
    intro hpz it hit htyped
    have hnX : n ∈ X := hzero hpz
    have hkeys : it.name ∈ ing2.map Prod.fst :=
      (hG1 n hnX e hlook it hit).1 htyped
    have hne : it.name ≠ n := by
      intro he
      exact typed_disjoint (he ▸ htyped) hrecTy
    exact mem_dictPop_keys hkeys hne
  have hzRec : popQty n ing2 = 0 → ∀ it ∈ e.requiredItems,
      RecipeTyped cb it.name →
      it.name ∉ (dictPop n ing2).2.map Prod.fst → it.name ∈ n :: X := by
    intro hpz it hit htyped hnk
    have hnX : n ∈ X := hzero hpz
    rcases (hG1 n hnX e hlook it hit).2 htyped with hk | hX2
    · by_cases hne : it.name = n
      · exact hne ▸ List.mem_cons_self _ _
      · exact absurd (mem_dictPop_keys hk hne) hnk
    · exact List.mem_cons_of_mem _ hX2
  refine ⟨?_, ?_, ?_, ?_, ?_, ?_, ?_, ?_⟩
  · exact processItems_nodup _ _ _ _ hnd1
  · exact processItems_nonneg _ _ hpq hvItems _ _ h51
  · intro p2 hp2
    rw [processItems_fst]
    rcases processItems_unit _ _ _ _ p2 hp2 with ⟨p, hp, hk, hu⟩ | h
    · have hpm : p ∈ ing2 := (dictPop_sublist n ing2).mem hp
      have hpne : p.1 ≠ n := by
        intro he
        exact not_mem_dictPop_self hnd
          (he ▸ List.mem_map.mpr ⟨p, hp, rfl⟩)
      rcases h1 p hpm with hq2 | ⟨e2, he2, het2, hu2⟩
      · rcases List.mem_cons.mp hq2 with hh | hh
        · exact absurd hh hpne
        · exact Or.inl (hk ▸ List.mem_append_left _ hh)
      · exact Or.inr ⟨e2, hk ▸ he2, het2, hu.trans hu2⟩
    · exact Or.inl (List.mem_append_right _ h)
  · exact processItems_pos cb _ _ hpq hvItems _ _ h51 h71 hzIng
  · intro m hm
    rcases List.mem_cons.mp hm with hh | hh
    · exact hh ▸ hrecTy
    · exact hXt m hh
  · intro m hm e2 he2 it hit
    rcases List.mem_cons.mp hm with hh | hh
    · subst hh
      rw [hlook] at he2
      obtain rfl := Option.some.inj he2
      exact ⟨fun _ => processItems_child_keys _ _ _ _ it hit,
        fun _ => Or.inl (processItems_child_keys _ _ _ _ it hit)⟩
    · have hold := hG1 m hh e2 he2 it hit
      constructor
      · intro htyped
        have hk := hold.1 htyped
        have hne : it.name ≠ n := by
          intro he
          exact typed_disjoint (he ▸ htyped) hrecTy
        exact processItems_keys_mono _ _ _ _ _ (mem_dictPop_keys hk hne)
      · intro htyped
        rcases hold.2 htyped with hk | hX2
        · by_cases hne : it.name = n
          · exact Or.inr (hne ▸ List.mem_cons_self _ _)
          · exact Or.inl (processItems_keys_mono _ _ _ _ _
              (mem_dictPop_keys hk hne))
        · exact Or.inr (List.mem_cons_of_mem _ hX2)
  · intro m hm
    rw [processItems_fst] at hm
    rcases List.mem_append.mp hm with hh | hh
    · rcases hG2 m (List.mem_cons_of_mem _ hh) with hk | hX2
      · by_cases hne : m = n
        · exact Or.inr (hne ▸ List.mem_cons_self _ _)
        · exact Or.inl (processItems_keys_mono _ _ _ _ _
            (mem_dictPop_keys hk hne))
      · exact Or.inr (List.mem_cons_of_mem _ hX2)
    · obtain ⟨it, hit, hname⟩ := List.mem_map.mp hh
      exact Or.inl (hname ▸ processItems_child_keys _ _ _ _ it hit)
  · refine processItems_zero_recipe cb (n :: X) _ _ hpq hvItems _ _
      h51 ?_ hzRec
    intro p hp htyped hq0
    exact List.mem_cons_of_mem _
      (hG3 p ((dictPop_sublist n ing2).mem hp) htyped hq0)
/-- One ingredient step of the loop preserves `InvX`. -/
theorem invX_step_ingredient (cb : List CookEntry)
    {n : String} {rest : List String} {ing2 : IngDict} {X : List String}
    {e : CookEntry} (hlook : look_for_item n cb = some e)
    (ht2 : e.type = "ingredient") (hInv : InvX cb X (n :: rest) ing2) :
    InvX cb X rest (dictSetUnit n e.cookTime ing2) := by
  obtain ⟨hnd, h5, h1, h7, hXt, hG1, hG2, hG3⟩ := hInv
  refine ⟨?_, ?_, ?_, ?_, hXt, ?_, ?_, ?_⟩
  · rw [keys_dictSetUnit]
    exact hnd
  · intro p2 hp2
    obtain ⟨p, hp, _, hq2, _⟩ := mem_dictSetUnit hp2
    rw [hq2]
    exact h5 p hp
  · intro p2 hp2
    rcases mem_dictSetUnit_nodup hnd hp2 with ⟨hmem, hne⟩ | ⟨w, hw, he⟩
    · rcases h1 p2 hmem with hq2 | hrec2
      · rcases List.mem_cons.mp hq2 with hh | hh
        · exact absurd hh hne
        · exact Or.inl hh
      · exact Or.inr hrec2
    · refine Or.inr ⟨e, ?_, ht2, ?_⟩
      · rw [he]
        exact hlook
      · rw [he]
  · intro p2 hp2
    obtain ⟨p, hp, hk, hq2, _⟩ := mem_dictSetUnit hp2
    intro htyped
    rw [hq2]
    exact h7 p hp (hk ▸ htyped)
  · intro m hm e2 he2 it hit
    have hold := hG1 m hm e2 he2 it hit
    rw [keys_dictSetUnit]
    exact hold
  · intro m hm
    rw [keys_dictSetUnit]
    exact hG2 m (List.mem_cons_of_mem _ hm)
  · intro p2 hp2
    obtain ⟨p, hp, hk, hq2, _⟩ := mem_dictSetUnit hp2
    intro htyped hq0
    rw [hk]
    exact hG3 p hp (hk ▸ htyped) (by rw [← hq2]; exact hq0)
/-- Under `InvX`, a queued name that resolves to an ingredient record is
present in the dictionary (no `KeyError`). -/
theorem invX_find_some {cb : List CookEntry} {n : String}
    {rest : List String} {ing : IngDict} {X : List String}
    (hInv : InvX cb X (n :: rest) ing) {e : CookEntry}
    (hlook : look_for_item n cb = some e) (ht2 : e.type = "ingredient") :
    ∃ v, dictFind n ing = some v := by
  obtain ⟨_, _, _, _, hXt, _, hG2, _⟩ := hInv
  rcases hG2 n (List.mem_cons_self _ _) with hk | hX
  · cases hfind : dictFind n ing with
    | none => exact absurd hk (dictFind_eq_none.mp hfind)
    | some v => exact ⟨v, rfl⟩
  · exact absurd (hXt n hX) (fun hr => typed_disjoint ⟨e, hlook, ht2⟩ hr)

/-- The full loop invariant `InvX` is preserved to the end of a completed
run (with some final ghost set). -/
theorem loop_invX (cb : List CookEntry) (hv : ValidTypes cb)
    (hq : PosQuantities cb) :
    ∀ fuel q ing r X, InvX cb X q ing →
      summaryLoop cb fuel q ing = some (.done r) →
      ∃ X2, InvX cb X2 [] r := by
  intro fuel q ing r X hX hdone
  refine summaryLoop_invariant cb (fun q ing => ∃ X, InvX cb X q ing)
    ?_ ?_ ?_ fuel q ing r ⟨X, hX⟩ hdone
  · intro n rest ing2 e hlook ht hP
    obtain ⟨X2, hX2⟩ := hP
    exact ⟨n :: X2, invX_step_recipe cb hq hlook ht hX2⟩
  · intro n rest ing2 e v hlook ht ht2 hfind hP
    obtain ⟨X2, hX2⟩ := hP
    exact ⟨X2, invX_step_ingredient cb hlook ht2 hX2⟩
  · -- impossible third branch under valid types
    clear hdone hX
    intro n rest ing2 e hlook ht ht2 _
    rcases hv e (look_mem hlook) with h | h
    · exact absurd h ht
    · exact absurd h ht2

/-- Witness for `C2_cooktime_weighted_sum` at the `catC1` success of C1. -/
theorem C2_cooktime_weighted_sum_witness :
    (⟨"Cake", 3, [("Flour", 3)]⟩ : Summary).cookTime =
      (((⟨"Cake", 3, [("Flour", 3)]⟩ : Summary).ingredients.map
        (fun p => p.2 * unitCt catC1 p.1)).sum) ∧
    ∀ p ∈ (⟨"Cake", 3, [("Flour", 3)]⟩ : Summary).ingredients,
      IngredientTyped catC1 p.1 :=
  C2_cooktime_weighted_sum catC1 "Cake" 10 ⟨"Cake", 3, [("Flour", 3)]⟩
    (by show ∀ e ∈ catC1, e.type = "recipe" ∨ e.type = "ingredient"; decide)
    rfl

/-- The invariant `InvX` holds at the start of the expansion loop. -/
theorem invX_init {cb : List CookEntry} {root : String} {target : CookEntry}
    (_hlook : look_for_item root cb = some target)
    (_ht : target.type = "recipe") :
    InvX cb [] [target.name] [(target.name, ⟨1, 0⟩)] := by
  refine ⟨by simp, ?_, ?_, ?_, by simp, by simp, ?_, ?_⟩
  · intro p hp
    simp only [List.mem_singleton] at hp
    subst hp
    norm_num
  · intro p hp
    simp only [List.mem_singleton] at hp
    subst hp
    exact Or.inl (by simp)
  · intro p hp _
    simp only [List.mem_singleton] at hp
    subst hp
    norm_num
  · intro m hm
    simp only [List.mem_singleton] at hm
    subst hm
    exact Or.inl (by simp)
  · intro p hp _ h0
    simp only [List.mem_singleton] at hp
    subst hp
    norm_num at h0

/-- **C3.** Whenever a `/summary` call succeeds, every `(name, quantity)`
pair of the returned ingredient list names an ingredient record of the
catalog and has positive quantity; no recipe-typed name — the root
included — appears in the output. -/
theorem C3_output_only_ingredients (cb : List CookEntry) (root : String)
    (fuel : Nat) (S : Summary) (hv : ValidTypes cb) (hq : PosQuantities cb)
    (hs : summary cb root fuel = some (.success S)) :
    ∀ p ∈ S.ingredients,
      IngredientTyped cb p.1 ∧ 0 < p.2 ∧ ¬RecipeTyped cb p.1 := by
  obtain ⟨target, r, hlook, ht, hloop, hS⟩ := summary_success_inv hs
  obtain ⟨X2, hnd, h5, h1, h7, _⟩ :=
    loop_invX cb hv hq fuel _ _ r [] (invX_init hlook ht) hloop
  subst hS
  intro p hp
  dsimp only at hp
  obtain ⟨p0, hp0, hpe⟩ := List.mem_map.mp hp
  have hrec2 := (h1 p0 hp0).resolve_left (by simp)
  obtain ⟨e, he, het, _⟩ := hrec2
  have htyped : IngredientTyped cb p0.1 := ⟨e, he, het⟩
  refine ⟨by rw [← hpe]; exact htyped, ?_, ?_⟩
  · rw [← hpe]
    exact lt_of_lt_of_le zero_lt_one (h7 p0 hp0 htyped)
  · rw [← hpe]
    intro hrecTy
    exact typed_disjoint htyped hrecTy

/-- Witness for `C3_output_only_ingredients` at the `catC1` success. -/
theorem C3_output_only_ingredients_witness :
    IngredientTyped catC1 ("Flour", (3 : Int)).1 ∧
      0 < ("Flour", (3 : Int)).2 ∧
      ¬RecipeTyped catC1 ("Flour", (3 : Int)).1 :=
  C3_output_only_ingredients catC1 "Cake" 10 ⟨"Cake", 3, [("Flour", 3)]⟩
    (by show ∀ e ∈ catC1, e.type = "recipe" ∨ e.type = "ingredient"; decide)
    (by show ∀ e ∈ catC1, ∀ it ∈ e.requiredItems, 1 ≤ it.quantity; decide)
    rfl ("Flour", 3) (by simp)

/-! #### Missing references abort the loop -/

/-- If the loop completes, every name reachable through reference edges
from a queued name resolves in the cookbook. -/
theorem done_resolves (cb : List CookEntry) :
    ∀ fuel q ing r, summaryLoop cb fuel q ing = some (.done r) →
      ∀ s ∈ q, ∀ m, Relation.ReflTransGen (RefEdge cb) s m →
        (look_for_item m cb).isSome := by
  intro fuel
  induction fuel with
  | zero =>
      intro q ing r hdone s hs m hm
      cases q with
      | nil => simp at hs
      | cons n rest => simp [summaryLoop] at hdone
  | succ f ih =>
      intro q ing r hdone s hs m hm
      cases q with
      | nil => simp at hs
      | cons n rest =>
          rw [summaryLoop] at hdone
          cases hlook : look_for_item n cb with
          | none =>
              rw [hlook] at hdone
              simp at hdone
          | some e =>
              rw [hlook] at hdone
              dsimp only at hdone
              by_cases ht : e.type = "recipe"
              · rw [if_pos ht] at hdone
                rcases List.mem_cons.mp hs with rfl | hsrest
                · rcases Relation.ReflTransGen.cases_head hm with rfl |
                    ⟨c, hedge, hcm⟩
                  · rw [hlook]; rfl
                  · obtain ⟨e2, he2, _, it, hit, hname⟩ := hedge
                    rw [hlook] at he2
                    obtain rfl := Option.some.inj he2
                    refine ih _ _ r hdone c ?_ m hcm
                    rw [processItems_fst]
                    exact List.mem_append_right _
                      (List.mem_map.mpr ⟨it, hit, hname⟩)
                · refine ih _ _ r hdone s ?_ m hm
                  rw [processItems_fst]
                  exact List.mem_append_left _ hsrest
              · rw [if_neg ht] at hdone
                rcases List.mem_cons.mp hs with rfl | hsrest
                · rcases Relation.ReflTransGen.cases_head hm with rfl |
                    ⟨c, hedge, hcm⟩
                  · rw [hlook]; rfl
                  · obtain ⟨e2, he2, ht2, _⟩ := hedge
                    rw [hlook] at he2
                    obtain rfl := Option.some.inj he2
                    exact absurd ht2 ht
                · by_cases ht2 : e.type = "ingredient"
                  · rw [if_pos ht2] at hdone
                    cases hfind : dictFind n ing with
                    | none =>
                        rw [hfind] at hdone
                        simp at hdone
                    | some v =>
                        rw [hfind] at hdone
                        exact ih _ _ r hdone s hsrest m hm
                  · rw [if_neg ht2] at hdone
                    exact ih _ _ r hdone s hsrest m hm

/-- Extending a fixed-length chain by one edge. -/
theorem pathN_snoc {cb : List CookEntry} :
    ∀ {L : Nat} {s b c : String}, PathN cb L s b → RefEdge cb b c →
      PathN cb (L + 1) s c := by
  intro L
  induction L with
  | zero =>
      intro s b c hp he
      exact ⟨c, hp ▸ he, rfl⟩
  | succ L ih =>
      intro s b c hp he
      obtain ⟨d, hd, hrest⟩ := hp
      exact ⟨d, hd, ih hrest he⟩

/-- Reachability yields a chain of some finite length. -/
theorem pathN_of_reflTransGen {cb : List CookEntry} {s m : String}
    (h : Relation.ReflTransGen (RefEdge cb) s m) :
    ∃ L, PathN cb L s m := by
  induction h with
  | refl => exact ⟨0, rfl⟩
  | tail hab hbc ih =>
      obtain ⟨L, hL⟩ := ih
      exact ⟨L + 1, pathN_snoc hL hbc⟩

/-- Under the loop invariant, if some queued name starts a chain to a
name absent from the cookbook, then some fuel bound makes the loop return
the constant 400 error `'Items not in the cookbook'`. -/
theorem eventually_fail (cb : List CookEntry) (hv : ValidTypes cb)
    (hq : PosQuantities cb) (m : String)
    (hmiss : look_for_item m cb = none) :
    ∀ L i q ing X s, InvX cb X q ing → q.get? i = some s →
      PathN cb L s m →
      ∃ fuel, summaryLoop cb fuel q ing =
        some (.fail "Items not in the cookbook") := by
  intro L
  induction L using Nat.strong_induction_on with
  | _ L ihL =>
  intro i
  induction i using Nat.strong_induction_on with
  | _ i ihi =>
  intro q ing X s hInv hget hpath
  cases q with
  | nil => simp at hget
  | cons n rest =>
  cases hlookn : look_for_item n cb with
  | none =>
      refine ⟨0 + 1, ?_⟩
      rw [summaryLoop, hlookn]
  | some e =>
      by_cases ht : e.type = "recipe"
      · cases i with
        | zero =>
            have hsn : n = s := by simpa using hget
            subst hsn
            cases L with
            | zero =>
                have hnm : n = m := hpath
                rw [hnm, hmiss] at hlookn
                simp at hlookn
            | succ L2 =>
                obtain ⟨c, hedge, hcm⟩ := hpath
                have hc : c ∈ (processItems (popQty n ing) e.requiredItems
                    rest (dictPop n ing).2).1 := by
                  rw [processItems_fst]
                  obtain ⟨e2, he2, _, it, hit, hname⟩ := hedge
                  rw [hlookn] at he2
                  obtain rfl := Option.some.inj he2
                  exact List.mem_append_right _
                    (List.mem_map.mpr ⟨it, hit, hname⟩)
                obtain ⟨j, hj⟩ := List.mem_iff_get?.mp hc
                obtain ⟨fuel, hfuel⟩ := ihL L2 (Nat.lt_succ_self _) j _ _
                  (n :: X) c (invX_step_recipe cb hq hlookn ht hInv) hj hcm
                refine ⟨fuel + 1, ?_⟩
                rw [summaryLoop, hlookn]
                dsimp only
                rw [if_pos ht]
                exact hfuel
        | succ i2 =>
            have hget2 : rest.get? i2 = some s := by simpa using hget
            have hlen : i2 < rest.length := (List.get?_eq_some.mp hget2).1
            have hj : ((processItems (popQty n ing) e.requiredItems rest
                (dictPop n ing).2).1).get? i2 = some s := by
              rw [processItems_fst, List.get?_append hlen]
              exact hget2
            obtain ⟨fuel, hfuel⟩ := ihi i2 (Nat.lt_succ_self _) _ _
              (n :: X) s (invX_step_recipe cb hq hlookn ht hInv) hj hpath
            refine ⟨fuel + 1, ?_⟩
            rw [summaryLoop, hlookn]
            dsimp only
            rw [if_pos ht]
            exact hfuel
      · by_cases ht2 : e.type = "ingredient"
        · cases i with
          | zero =>
              have hsn : n = s := by simpa using hget
              subst hsn
              cases L with
              | zero =>
                  have hnm : n = m := hpath
                  rw [hnm, hmiss] at hlookn
                  simp at hlookn
              | succ L2 =>
                  obtain ⟨c, hedge, _⟩ := hpath
                  obtain ⟨e2, he2, hrt, _⟩ := hedge
                  rw [hlookn] at he2
                  obtain rfl := Option.some.inj he2
                  exact absurd hrt ht
          | succ i2 =>
              have hget2 : rest.get? i2 = some s := by simpa using hget
              obtain ⟨v, hfind⟩ := invX_find_some hInv hlookn ht2
              obtain ⟨fuel, hfuel⟩ := ihi i2 (Nat.lt_succ_self _) rest
                (dictSetUnit n e.cookTime ing) X s
                (invX_step_ingredient cb hlookn ht2 hInv) hget2 hpath
              refine ⟨fuel + 1, ?_⟩
              rw [summaryLoop, hlookn]
              dsimp only
              rw [if_neg ht, if_pos ht2, hfind]
              exact hfuel
        · rcases hv e (look_mem hlookn) with h | h
          · exact absurd h ht
          · exact absurd h ht2

/-- **C6 counterexample.** The missing-reference error does not carry the
missing name: two catalogs whose recipes reference two different absent
names produce one and the same constant response. -/
theorem C6_counterexample :
    summary cat6a "Cake" 10 =
      some (.badRequest "Items not in the cookbook") ∧
    summary cat6b "Cake" 10 =
      some (.badRequest "Items not in the cookbook") ∧
    summary cat6a "Cake" 10 = summary cat6b "Cake" 10 :=
  ⟨rfl, rfl, rfl⟩

/-- **C6 (amended).** For a valid root recipe, if any name reachable
through required-item references is absent from the catalog, the call can
never produce a summary (for any fuel bound), and some fuel bound makes
it return the constant 400 error `'Items not in the cookbook'` — a
response that does not carry the missing name. -/
theorem C6_missing_reference_aborts (cb : List CookEntry) (root m : String)
    (target : CookEntry) (hv : ValidTypes cb) (hq : PosQuantities cb)
    (hroot : look_for_item root cb = some target)
    (ht : target.type = "recipe")
    (hreach : Relation.ReflTransGen (RefEdge cb) root m)
    (hmiss : look_for_item m cb = none) :
    (∀ fuel S, summary cb root fuel ≠ some (.success S)) ∧
    (∃ fuel, summary cb root fuel =
      some (.badRequest "Items not in the cookbook")) := by
  have hname : target.name = root := look_name hroot
  constructor
  · intro fuel S hs
    obtain ⟨target2, r, hlook2, _, hloop, _⟩ := summary_success_inv hs
    rw [hroot] at hlook2
    obtain rfl := Option.some.inj hlook2
    have hres := done_resolves cb fuel _ _ r hloop target.name (by simp) m
      (by rw [hname]; exact hreach)
    rw [hmiss] at hres
    simp at hres
  · obtain ⟨L, hL⟩ := pathN_of_reflTransGen hreach
    obtain ⟨fuel, hfuel⟩ := eventually_fail cb hv hq m hmiss L 0
      [target.name] [(target.name, ⟨1, 0⟩)] [] target.name
      (invX_init hroot ht) (by simp) (by rw [hname]; exact hL)
    refine ⟨fuel, ?_⟩
    unfold summary
    rw [hroot]
    dsimp only
    rw [if_neg (fun hne => hne ht), hfuel]

/-- Witness for `C6_missing_reference_aborts` on the one-recipe catalog
whose only required item `"Sugar"` is absent. -/
theorem C6_missing_reference_aborts_witness :
    (∀ fuel S, summary cat6a "Cake" fuel ≠ some (.success S)) ∧
    (∃ fuel, summary cat6a "Cake" fuel =
      some (.badRequest "Items not in the cookbook")) :=
  C6_missing_reference_aborts cat6a "Cake" "Sugar"
    { type := "recipe", name := "Cake", requiredItems := [⟨"Sugar", 1⟩] }
    (by show ∀ e ∈ cat6a, e.type = "recipe" ∨ e.type = "ingredient"; decide)
    (by show ∀ e ∈ cat6a, ∀ it ∈ e.requiredItems, 1 ≤ it.quantity; decide)
    rfl rfl
    (Relation.ReflTransGen.single
      ⟨{ type := "recipe", name := "Cake", requiredItems := [⟨"Sugar", 1⟩] },
        rfl, rfl, ⟨"Sugar", 1⟩, by simp, rfl⟩)
    rfl

/-! #### C7: canonical demand, conservation, permutation invariance -/

/-- Unfolding of `heightLEb` at depth 0. -/
theorem heightLEb_zero_eq (cb : List CookEntry) (c : String) :
    heightLEb cb 0 c =
      match look_for_item c cb with
      | some e => if e.type = "recipe" then false else true
      | none => true := rfl

/-- Unfolding of `heightLEb` at a successor depth. -/
theorem heightLEb_succ_eq (cb : List CookEntry) (k : Nat) (c : String) :
    heightLEb cb (k + 1) c =
      match look_for_item c cb with
      | some e =>
          if e.type = "recipe" then
            e.requiredItems.all (fun it => heightLEb cb k it.name)
          else true
      | none => true := rfl

/-- Unfolding of `wIter` at depth 0. -/
theorem wIter_zero_eq (cb : List CookEntry) (x c : String) :
    wIter cb 0 x c =
      match look_for_item c cb with
      | some e =>
          if e.type = "ingredient" then (if c = x then 1 else 0) else 0
      | none => 0 := rfl

/-- Unfolding of `wIter` at a successor depth. -/
theorem wIter_succ_eq (cb : List CookEntry) (k : Nat) (x c : String) :
    wIter cb (k + 1) x c =
      match look_for_item c cb with
      | some e =>
          if e.type = "recipe" then
            (e.requiredItems.map
              (fun it => it.quantity * wIter cb k x it.name)).sum
          else if e.type = "ingredient" then (if c = x then 1 else 0)
          else 0
      | none => 0 := rfl

/-- Height bounds are monotone in the bound. -/
theorem heightLEb_mono (cb : List CookEntry) :
    ∀ j k c, j ≤ k → heightLEb cb j c = true → heightLEb cb k c = true := by
  intro j
  induction j with
  | zero =>
      intro k c _ h0
      cases k with
      | zero => exact h0
      | succ k2 =>
          rw [heightLEb_zero_eq] at h0
          rw [heightLEb_succ_eq]
          cases hlook : look_for_item c cb with
          | none => rfl
          | some e =>
              rw [hlook] at h0
              dsimp only at h0 ⊢
              by_cases ht : e.type = "recipe"
              · rw [if_pos ht] at h0
                exact absurd h0 (by simp)
              · rw [if_neg ht]
  | succ j ih =>
      intro k c hjk h0
      cases k with
      | zero => exact absurd hjk (by omega)
      | succ k2 =>
          rw [heightLEb_succ_eq] at h0
          rw [heightLEb_succ_eq]
          cases hlook : look_for_item c cb with
          | none => rfl
          | some e =>
              rw [hlook] at h0
              dsimp only at h0 ⊢
              by_cases ht : e.type = "recipe"
              · rw [if_pos ht] at h0 ⊢
                rw [List.all_eq_true] at h0 ⊢
                intro it hit
                exact ih k2 it.name (by omega) (h0 it hit)
              · rw [if_neg ht]

/-- A common height bound for a finite list of names that each have one. -/
theorem heights_combine (cb : List CookEntry) :
    ∀ its : List RequiredItem,
      (∀ it ∈ its, ∃ k, heightLEb cb k it.name = true) →
      ∃ K, ∀ it ∈ its, heightLEb cb K it.name = true := by
  intro its
  induction its with
  | nil =>
      intro _
      exact ⟨0, by simp⟩
  | cons it rest ih =>
      intro h
      obtain ⟨k1, hk1⟩ := h it (List.mem_cons_self _ _)
      obtain ⟨K, hK⟩ := ih (fun y hy => h y (List.mem_cons_of_mem _ hy))
      refine ⟨max k1 K, ?_⟩
      intro y hy
      rcases List.mem_cons.mp hy with rfl | hy2
      · exact heightLEb_mono cb k1 _ _ (le_max_left _ _) hk1
      · exact heightLEb_mono cb K _ _ (le_max_right _ _) (hK y hy2)

/-- If the loop completes, every queued name has a finite height in the
composition graph. -/
theorem done_heights (cb : List CookEntry) :
    ∀ fuel q ing r, summaryLoop cb fuel q ing = some (.done r) →
      ∀ s ∈ q, ∃ k, heightLEb cb k s = true := by
  intro fuel
  induction fuel with
  | zero =>
      intro q ing r hdone s hs
      cases q with
      | nil => simp at hs
      | cons n rest => simp [summaryLoop] at hdone
  | succ f ih =>
      intro q ing r hdone s hs
      cases q with
      | nil => simp at hs
      | cons n rest =>
          rw [summaryLoop] at hdone
          cases hlook : look_for_item n cb with
          | none =>
              rw [hlook] at hdone
              simp at hdone
          | some e =>
              rw [hlook] at hdone
              dsimp only at hdone
              by_cases ht : e.type = "recipe"
              · rw [if_pos ht] at hdone
                rcases List.mem_cons.mp hs with rfl | hsrest
                · have hch : ∀ it ∈ e.requiredItems, ∃ k,
                      heightLEb cb k it.name = true := by
                    intro it hit
                    refine ih _ _ r hdone it.name ?_
                    rw [processItems_fst]
                    exact List.mem_append_right _
                      (List.mem_map.mpr ⟨it, hit, rfl⟩)
                  obtain ⟨K, hK⟩ := heights_combine cb _ hch
                  refine ⟨K + 1, ?_⟩
                  rw [heightLEb_succ_eq, hlook]
                  dsimp only
                  rw [if_pos ht, List.all_eq_true]
                  intro it hit
                  exact hK it hit
                · refine ih _ _ r hdone s ?_
                  rw [processItems_fst]
                  exact List.mem_append_left _ hsrest
              · rw [if_neg ht] at hdone
                rcases List.mem_cons.mp hs with rfl | hsrest
                · refine ⟨0, ?_⟩
                  rw [heightLEb_zero_eq, hlook]
                  dsimp only
                  rw [if_neg ht]
                · by_cases ht2 : e.type = "ingredient"
                  · rw [if_pos ht2] at hdone
                    cases hfind : dictFind n ing with
                    | none =>
                        rw [hfind] at hdone
                        simp at hdone
                    | some v =>
                        rw [hfind] at hdone
                        exact ih _ _ r hdone s hsrest
                  · rw [if_neg ht2] at hdone
                    exact ih _ _ r hdone s hsrest

/-- Below its height bound, the canonical demand is stable in the depth. -/
theorem wIter_stable (cb : List CookEntry) :
    ∀ j c K x, j ≤ K → heightLEb cb j c = true →
      wIter cb K x c = wIter cb j x c := by
  intro j
  induction j with
  | zero =>
      intro c K x _ h0
      cases K with
      | zero => rfl
      | succ K2 =>
          rw [heightLEb_zero_eq] at h0
          rw [wIter_succ_eq, wIter_zero_eq]
          cases hlook : look_for_item c cb with
          | none => rfl
          | some e =>
              rw [hlook] at h0
              dsimp only at h0 ⊢
              by_cases ht : e.type = "recipe"
              · rw [if_pos ht] at h0
                exact absurd h0 (by simp)
              · rw [if_neg ht]
  | succ j ih =>
      intro c K x hjK h0
      cases K with
      | zero => exact absurd hjK (by omega)
      | succ K2 =>
          rw [heightLEb_succ_eq] at h0
          rw [wIter_succ_eq, wIter_succ_eq]
          cases hlook : look_for_item c cb with
          | none => rfl
          | some e =>
              rw [hlook] at h0
              dsimp only at h0 ⊢
              by_cases ht : e.type = "recipe"
              · rw [if_pos ht] at h0
                rw [List.all_eq_true] at h0
                rw [if_pos ht, if_pos ht]
                apply congrArg List.sum
                apply List.map_congr_left
                intro it hit
                rw [ih it.name K2 x (by omega) (h0 it hit)]
              · simp only [if_neg ht]

/-- At a recipe name with a height bound, the canonical demand satisfies
the expansion fixpoint equation. -/
theorem wIter_fixpoint (cb : List CookEntry) (k : Nat) (n : String)
    (e : CookEntry) (K : Nat) (x : String)
    (hh : heightLEb cb k n = true)
    (hlook : look_for_item n cb = some e) (ht : e.type = "recipe")
    (hkK : k ≤ K) :
    wIter cb K x n =
      (e.requiredItems.map
        (fun it => it.quantity * wIter cb K x it.name)).sum := by
  cases k with
  | zero =>
      rw [heightLEb_zero_eq, hlook] at hh
      dsimp only at hh
      rw [if_pos ht] at hh
      exact absurd hh (by simp)
  | succ j =>
      have h1 : wIter cb K x n = wIter cb (j + 1) x n :=
        wIter_stable cb (j + 1) n K x hkK hh
      have hch : ∀ it ∈ e.requiredItems, heightLEb cb j it.name = true := by
        rw [heightLEb_succ_eq, hlook] at hh
        dsimp only at hh
        rw [if_pos ht, List.all_eq_true] at hh
        exact hh
      rw [h1, wIter_succ_eq, hlook]
      dsimp only
      rw [if_pos ht]
      apply congrArg List.sum
      apply List.map_congr_left
      intro it hit
      rw [wIter_stable cb j it.name K x (by omega) (hch it hit)]

/-- At an ingredient name, the canonical demand is the indicator of the
target, at every depth. -/
theorem wIter_ingredient (cb : List CookEntry) (K : Nat) (x c : String)
    (e : CookEntry) (hlook : look_for_item c cb = some e)
    (ht : e.type = "ingredient") :
    wIter cb K x c = if c = x then 1 else 0 := by
  have htr : ¬ e.type = "recipe" := by
    rw [ht]
    decide
  cases K with
  | zero =>
      rw [wIter_zero_eq, hlook]
      dsimp only
      rw [if_pos ht]
  | succ K2 =>
      rw [wIter_succ_eq, hlook]
      dsimp only
      rw [if_neg htr, if_pos ht]

/-- `weightSum` after a pop, phrased with `popQty`. -/
theorem weightSum_pop_popQty (g : String → Int) (n : String) (ing : IngDict) :
    weightSum g (dictPop n ing).2 = weightSum g ing - popQty n ing * g n := by
  unfold popQty
  exact weightSum_pop g n ing

/-- One full run of the loop conserves any weight `g` satisfying the
expansion fixpoint at every height-bounded recipe name, as long as every
queued name is height-bounded. -/
theorem loop_conservation (cb : List CookEntry) (K : Nat) (g : String → Int)
    (hfix : ∀ n e, look_for_item n cb = some e → e.type = "recipe" →
      heightLEb cb K n = true →
      g n = (e.requiredItems.map (fun it => it.quantity * g it.name)).sum) :
    ∀ fuel q ing r,
      (∀ s ∈ q, heightLEb cb K s = true) →
      summaryLoop cb fuel q ing = some (.done r) →
      weightSum g r = weightSum g ing := by
  intro fuel q ing r hh hdone
  have h := summaryLoop_invariant cb
    (fun q2 ing2 => (∀ s ∈ q2, heightLEb cb K s = true) ∧
      weightSum g ing2 = weightSum g ing)
    ?_ ?_ ?_ fuel q ing r ⟨hh, rfl⟩ hdone
  · exact h.2
  · intro n rest ing2 e hlook ht hP
    obtain ⟨hh2, hW⟩ := hP
    have hhn : heightLEb cb K n = true := hh2 n (List.mem_cons_self _ _)
    have hch : ∀ it ∈ e.requiredItems, heightLEb cb K it.name = true := by
      cases K with
      | zero =>
          rw [heightLEb_zero_eq, hlook] at hhn
          dsimp only at hhn
          rw [if_pos ht] at hhn
          exact absurd hhn (by simp)
      | succ K2 =>
          rw [heightLEb_succ_eq, hlook] at hhn
          dsimp only at hhn
          rw [if_pos ht, List.all_eq_true] at hhn
          intro it hit
          exact heightLEb_mono cb K2 (K2 + 1) it.name (by omega) (hhn it hit)
    refine ⟨?_, ?_⟩
    · intro s hs
      rw [processItems_fst] at hs
      rcases List.mem_append.mp hs with h1 | h1
      · exact hh2 s (List.mem_cons_of_mem _ h1)
      · obtain ⟨it, hit, rfl⟩ := List.mem_map.mp h1
        exact hch it hit
    · rw [processItems_weightSum, weightSum_pop_popQty, hW,
        hfix n e hlook ht hhn]
      ring
  · intro n rest ing2 e v hlook ht ht2 hfind hP
    obtain ⟨hh2, hW⟩ := hP
    refine ⟨fun s hs => hh2 s (List.mem_cons_of_mem _ hs), ?_⟩
    rw [weightSum_setUnit]
    exact hW
  · intro n rest ing2 e hlook ht ht2 hP
    obtain ⟨hh2, hW⟩ := hP
    exact ⟨fun s hs => hh2 s (List.mem_cons_of_mem _ hs), hW⟩

/-- Unfolding of `listQty` on a cons cell. -/
theorem listQty_cons (k : String) (q : Int) (rest : List (String × Int))
    (x : String) :
    listQty ((k, q) :: rest) x = if k = x then q else listQty rest x := rfl

/-- With unique keys, `listQty` returns the stored quantity of a member. -/
theorem listQty_of_mem_nodup :
    ∀ l : List (String × Int), (l.map Prod.fst).Nodup →
      ∀ q ∈ l, listQty l q.1 = q.2 := by
  intro l
  induction l with
  | nil =>
      intro _ q hq
      simp at hq
  | cons p rest ih =>
      intro hnd q hq
      obtain ⟨k, v⟩ := p
      simp only [List.map_cons, List.nodup_cons] at hnd
      obtain ⟨hk, hndr⟩ := hnd
      rcases List.mem_cons.mp hq with rfl | hq2
      · show listQty ((k, v) :: rest) k = v
        rw [listQty_cons, if_pos rfl]
      · rw [listQty_cons, if_neg ?_]
        · exact ih hndr q hq2
        · intro he
          exact hk (List.mem_map.mpr ⟨q, hq2, he.symm⟩)

/-- `listQty` of an absent key is 0. -/
theorem listQty_eq_zero_of_not_mem :
    ∀ (l : List (String × Int)) (x : String),
      x ∉ l.map Prod.fst → listQty l x = 0 := by
  intro l
  induction l with
  | nil =>
      intro x _
      rfl
  | cons p rest ih =>
      intro x hx
      obtain ⟨k, v⟩ := p
      simp only [List.map_cons, List.mem_cons] at hx
      push_neg at hx
      obtain ⟨h1x, h2x⟩ := hx
      rw [listQty_cons, if_neg (fun he => h1x he.symm), ih x h2x]

/-- A weight vanishing on every key gives weighted sum 0. -/
theorem weightSum_zero (g : String → Int) :
    ∀ r : IngDict, (∀ p ∈ r, g p.1 = 0) → weightSum g r = 0 := by
  intro r h
  unfold weightSum
  apply List.sum_eq_zero
  intro a ha
  obtain ⟨p, hp, rfl⟩ := List.mem_map.mp ha
  rw [h p hp, mul_zero]

/-- For an indicator weight and unique keys, the weighted sum over the
dictionary is the quantity the output list records for the target. -/
theorem weightSum_indicator (g : String → Int) (x : String) :
    ∀ r : IngDict, (r.map Prod.fst).Nodup →
      (∀ p ∈ r, g p.1 = if p.1 = x then 1 else 0) →
      weightSum g r = listQty (r.map (fun p => (p.1, p.2.quantity))) x := by
  intro r
  induction r with
  | nil =>
      intro _ _
      rfl
  | cons p rest ih =>
      intro hnd hg
      simp only [List.map_cons, List.nodup_cons] at hnd
      obtain ⟨hp1, hndr⟩ := hnd
      have hWc : weightSum g (p :: rest) =
          p.2.quantity * g p.1 + weightSum g rest := by
        unfold weightSum
        simp [List.map_cons]
      rw [hWc, List.map_cons, listQty_cons]
      by_cases hx : p.1 = x
      · rw [if_pos hx, hg p (List.mem_cons_self _ _), if_pos hx]
        have hz : weightSum g rest = 0 := by
          apply weightSum_zero
          intro q hq2
          rw [hg q (List.mem_cons_of_mem _ hq2), if_neg ?_]
          intro he
          exact hp1 (List.mem_map.mpr ⟨q, hq2, by rw [he, hx]⟩)
        rw [hz, mul_one, add_zero]
      · rw [if_neg hx, hg p (List.mem_cons_self _ _), if_neg hx, mul_zero,
          zero_add]
        exact ih hndr (fun q hq2 => hg q (List.mem_cons_of_mem _ hq2))

/-- Canonical content of a successful run: a height bound `k` for the root
exists; for every depth `K ≥ k`, the returned quantity of every name `x`
is the canonical demand `wIter cb K x root`; the cook time is the
`unitCt`-weighted sum over the returned pairs; the returned key list has
no duplicates; and a key is returned iff its quantity is at least 1. -/
theorem summary_canonical (cb : List CookEntry) (root : String)
    (fuel : Nat) (S : Summary) (hv : ValidTypes cb) (hq : PosQuantities cb)
    (hs : summary cb root fuel = some (.success S)) :
    ∃ k, heightLEb cb k root = true ∧
      (∀ K, k ≤ K → ∀ x, listQty S.ingredients x = wIter cb K x root) ∧
      S.cookTime = (S.ingredients.map (fun p => p.2 * unitCt cb p.1)).sum ∧
      (S.ingredients.map Prod.fst).Nodup ∧
      (∀ x, x ∈ S.ingredients.map Prod.fst ↔ 1 ≤ listQty S.ingredients x) := by
  obtain ⟨target, r, hlook, ht, hloop, hS⟩ := summary_success_inv hs
  have hname : target.name = root := look_name hlook
  obtain ⟨X2, hInv⟩ :=
    loop_invX cb hv hq fuel _ _ r [] (invX_init hlook ht) hloop
  obtain ⟨hnd, _h5, h1, h7, _⟩ := hInv
  have hingr : ∀ p ∈ r, ∃ e, look_for_item p.1 cb = some e ∧
      e.type = "ingredient" ∧ p.2.unit_cook_time = e.cookTime :=
    fun p hp => (h1 p hp).resolve_left (by simp)
  have hpos : ∀ p ∈ r, 1 ≤ p.2.quantity := by
    intro p hp
    obtain ⟨e, he, het, _⟩ := hingr p hp
    exact h7 p hp ⟨e, he, het⟩
  obtain ⟨k0, hk0⟩ := done_heights cb fuel _ _ r hloop target.name (by simp)
  subst hS
  have hkeys : (r.map (fun p => (p.1, p.2.quantity))).map Prod.fst =
      r.map Prod.fst := by
    rw [List.map_map]
    apply List.map_congr_left
    intro p _
    rfl
  refine ⟨k0, hname ▸ hk0, ?_, ?_, ?_, ?_⟩
  · intro K hK x
    dsimp only
    have hhq : ∀ s ∈ [target.name], heightLEb cb K s = true := by
      intro s hs2
      simp only [List.mem_singleton] at hs2
      subst hs2
      exact heightLEb_mono cb k0 K target.name hK hk0
    have hcons := loop_conservation cb K (fun c => wIter cb K x c)
      (fun n e hl htr hhn => wIter_fixpoint cb K n e K x hhn hl htr
        (le_refl K))
      fuel _ _ r hhq hloop
    have hinit : weightSum (fun c => wIter cb K x c)
        [(target.name, ⟨1, 0⟩)] = wIter cb K x target.name := by
      unfold weightSum
      simp
    have hind : ∀ p ∈ r, (fun c => wIter cb K x c) p.1 =
        if p.1 = x then 1 else 0 := by
      intro p hp
      obtain ⟨e, he, het, _⟩ := hingr p hp
      exact wIter_ingredient cb K x p.1 e he het
    rw [← weightSum_indicator (fun c => wIter cb K x c) x r hnd hind,
      hcons, hinit, hname]
  · dsimp only
    rw [List.map_map]
    apply congrArg List.sum
    apply List.map_congr_left
    intro p hp
    obtain ⟨e, he, het, hu⟩ := hingr p hp
    simp only [Function.comp_apply, unitCt, he, hu]
  · dsimp only
    rw [hkeys]
    exact hnd
  · intro x
    dsimp only
    rw [hkeys]
    constructor
    · intro hx
      obtain ⟨p, hp, hpx⟩ := List.mem_map.mp hx
      have hnd2 : ((r.map (fun p => (p.1, p.2.quantity))).map
          Prod.fst).Nodup := by
        rw [hkeys]
        exact hnd
      have hql : listQty (r.map (fun p => (p.1, p.2.quantity))) p.1 =
          p.2.quantity :=
        listQty_of_mem_nodup _ hnd2 (p.1, p.2.quantity)
          (List.mem_map.mpr ⟨p, hp, rfl⟩)
      rw [← hpx, hql]
      exact hpos p hp
    · intro hx
      by_contra hnx
      have h0 : listQty (r.map (fun p => (p.1, p.2.quantity))) x = 0 :=
        listQty_eq_zero_of_not_mem _ x (by rw [hkeys]; exact hnx)
      rw [h0] at hx
      exact absurd hx (by norm_num)

/-- Matching records on the two sides of a related catalog pair: lookups
miss together or hit related records. -/
theorem look_rel {cb cb2 : List CookEntry}
    (hrel : List.Forall₂ EntryPerm cb cb2) (n : String) :
    (look_for_item n cb = none ∧ look_for_item n cb2 = none) ∨
    ∃ e e2, look_for_item n cb = some e ∧ look_for_item n cb2 = some e2 ∧
      EntryPerm e e2 := by
  induction hrel with
  | nil => exact Or.inl ⟨rfl, rfl⟩
  | cons h t ih =>
      rename_i a b l1 l2
      rw [look_for_item, look_for_item]
      by_cases hn : a.name = n
      · have hb : b.name = n := by
          rw [← h.2.1]
          exact hn
        rw [if_pos hn, if_pos hb]
        exact Or.inr ⟨a, b, rfl, rfl, h⟩
      · have hb : ¬ b.name = n := by
          rw [← h.2.1]
          exact hn
        rw [if_neg hn, if_neg hb]
        exact ih

/-- The canonical demand agrees across related catalogs. -/
theorem wIter_rel {cb cb2 : List CookEntry}
    (hrel : List.Forall₂ EntryPerm cb cb2) :
    ∀ k x c, wIter cb k x c = wIter cb2 k x c := by
  intro k
  induction k with
  | zero =>
      intro x c
      rw [wIter_zero_eq, wIter_zero_eq]
      rcases look_rel hrel c with ⟨h1, h2⟩ | ⟨e, e2, h1, h2, hp⟩
      · rw [h1, h2]
      · rw [h1, h2]
        dsimp only
        rw [hp.1]
  | succ k ih =>
      intro x c
      rw [wIter_succ_eq, wIter_succ_eq]
      rcases look_rel hrel c with ⟨h1, h2⟩ | ⟨e, e2, h1, h2, hp⟩
      · rw [h1, h2]
      · rw [h1, h2]
        dsimp only
        rw [hp.1]
        by_cases ht : e2.type = "recipe"
        · rw [if_pos ht, if_pos ht]
          have hfun :
              (fun it : RequiredItem => it.quantity * wIter cb k x it.name) =
              (fun it : RequiredItem =>
                it.quantity * wIter cb2 k x it.name) := by
            funext it
            rw [ih x it.name]
          rw [hfun]
          exact List.Perm.sum_eq (hp.2.2.2.map _)
        · rw [if_neg ht, if_neg ht]

/-- The recorded unit cook time agrees across related catalogs. -/
theorem unitCt_rel {cb cb2 : List CookEntry}
    (hrel : List.Forall₂ EntryPerm cb cb2) (n : String) :
    unitCt cb n = unitCt cb2 n := by
  unfold unitCt
  rcases look_rel hrel n with ⟨h1, h2⟩ | ⟨e, e2, h1, h2, hp⟩
  · rw [h1, h2]
  · rw [h1, h2]
    dsimp only
    exact hp.2.2.1

/-- Every record on the right of a related catalog pair has a related
record on the left. -/
theorem rel_mem_right {cb cb2 : List CookEntry}
    (hrel : List.Forall₂ EntryPerm cb cb2) :
    ∀ e2 ∈ cb2, ∃ e ∈ cb, EntryPerm e e2 := by
  induction hrel with
  | nil =>
      intro e2 he2
      simp at he2
  | cons h t ih =>
      intro e2 he2
      rcases List.mem_cons.mp he2 with rfl | h2
      · exact ⟨_, List.mem_cons_self _ _, h⟩
      · obtain ⟨e, he, hp⟩ := ih e2 h2
        exact ⟨e, List.mem_cons_of_mem _ he, hp⟩

/-- Binary type tags transfer along the catalog relation. -/
theorem validTypes_rel {cb cb2 : List CookEntry}
    (hrel : List.Forall₂ EntryPerm cb cb2) (hv : ValidTypes cb) :
    ValidTypes cb2 := by
  intro e2 he2
  obtain ⟨e, he, hp⟩ := rel_mem_right hrel e2 he2
  rw [← hp.1]
  exact hv e he

/-- Positive required quantities transfer along the catalog relation. -/
theorem posQuantities_rel {cb cb2 : List CookEntry}
    (hrel : List.Forall₂ EntryPerm cb cb2) (hq : PosQuantities cb) :
    PosQuantities cb2 := by
  intro e2 he2 it hit
  obtain ⟨e, he, hp⟩ := rel_mem_right hrel e2 he2
  exact hq e he it (hp.2.2.2.mem_iff.mpr hit)

/-- With unique keys, the quantity-times-weight sum over the pairs equals
the same sum indexed by the key list. -/
theorem sum_pairs_eq_sum_keys (l : List (String × Int)) (u : String → Int)
    (hnd : (l.map Prod.fst).Nodup) :
    (l.map (fun p => p.2 * u p.1)).sum =
      ((l.map Prod.fst).map (fun x => listQty l x * u x)).sum := by
  rw [List.map_map]
  apply congrArg List.sum
  apply List.map_congr_left
  intro p hp
  dsimp only [Function.comp]
  rw [listQty_of_mem_nodup l hnd p hp]

/-- **C7.** The endpoint is deterministic and permutation-invariant: for
two catalogs related record-by-record up to reordering of required items
(the same multiset of `(name, quantity)` pairs per record; the unchanged
catalog is the reflexive case), any two successful `/summary` calls on
the same root — with any step bounds — agree on the returned name, on
every name's returned quantity, on the set of returned names, and on the
total cook time. -/
theorem C7_determinism_permutation_invariance
    (cb cb2 : List CookEntry) (root : String) (fuel fuel2 : Nat)
    (S S2 : Summary) (hv : ValidTypes cb) (hq : PosQuantities cb)
    (hrel : List.Forall₂ EntryPerm cb cb2)
    (hs : summary cb root fuel = some (.success S))
    (hs2 : summary cb2 root fuel2 = some (.success S2)) :
    S.name = S2.name ∧
    (∀ x, listQty S.ingredients x = listQty S2.ingredients x) ∧
    (∀ x, x ∈ S.ingredients.map Prod.fst ↔
      x ∈ S2.ingredients.map Prod.fst) ∧
    S.cookTime = S2.cookTime := by
  have hv2 := validTypes_rel hrel hv
  have hq2 := posQuantities_rel hrel hq
  obtain ⟨k1, hk1, hqty1, hct1, hnd1, hmem1⟩ :=
    summary_canonical cb root fuel S hv hq hs
  obtain ⟨k2, hk2, hqty2, hct2, hnd2, hmem2⟩ :=
    summary_canonical cb2 root fuel2 S2 hv2 hq2 hs2
  have hq12 : ∀ x, listQty S.ingredients x = listQty S2.ingredients x := by
    intro x
    rw [hqty1 (max k1 k2) (le_max_left _ _) x,
      hqty2 (max k1 k2) (le_max_right _ _) x,
      wIter_rel hrel (max k1 k2) x root]
  have hname : S.name = S2.name := by
    obtain ⟨t1, r1, _, _, _, hS1⟩ := summary_success_inv hs
    obtain ⟨t2, r2, _, _, _, hS2e⟩ := summary_success_inv hs2
    rw [hS1, hS2e]
  refine ⟨hname, hq12, ?_, ?_⟩
  · intro x
    rw [hmem1 x, hmem2 x, hq12 x]
  · have hperm : (S.ingredients.map Prod.fst).Perm
        (S2.ingredients.map Prod.fst) := by
      rw [List.perm_ext_iff_of_nodup hnd1 hnd2]
      intro x
      rw [hmem1 x, hmem2 x, hq12 x]
    rw [hct1, hct2, sum_pairs_eq_sum_keys S.ingredients (unitCt cb) hnd1,
      sum_pairs_eq_sum_keys S2.ingredients (unitCt cb2) hnd2]
    have hfun : (fun x => listQty S.ingredients x * unitCt cb x) =
        (fun x => listQty S2.ingredients x * unitCt cb2 x) := by
      funext x
      rw [hq12 x, unitCt_rel hrel x]
    rw [hfun]
    exact List.Perm.sum_eq (hperm.map _)

/-- Witness for `C7_determinism_permutation_invariance`: `catC1` against
its reordering `catC1perm`, both summarised at `"Cake"` — both succeed
with the same summary. -/
theorem C7_determinism_permutation_invariance_witness :
    (⟨"Cake", 3, [("Flour", 3)]⟩ : Summary).name =
      (⟨"Cake", 3, [("Flour", 3)]⟩ : Summary).name ∧
    (∀ x, listQty (⟨"Cake", 3, [("Flour", 3)]⟩ : Summary).ingredients x =
      listQty (⟨"Cake", 3, [("Flour", 3)]⟩ : Summary).ingredients x) ∧
    (∀ x,
      x ∈ (⟨"Cake", 3, [("Flour", 3)]⟩ : Summary).ingredients.map Prod.fst ↔
      x ∈ (⟨"Cake", 3, [("Flour", 3)]⟩ :
        Summary).ingredients.map Prod.fst) ∧
    (⟨"Cake", 3, [("Flour", 3)]⟩ : Summary).cookTime =
      (⟨"Cake", 3, [("Flour", 3)]⟩ : Summary).cookTime :=
  C7_determinism_permutation_invariance catC1 catC1perm "Cake" 10 10
    ⟨"Cake", 3, [("Flour", 3)]⟩ ⟨"Cake", 3, [("Flour", 3)]⟩
    (by show ∀ e ∈ catC1, e.type = "recipe" ∨ e.type = "ingredient"; decide)
    (by show ∀ e ∈ catC1, ∀ it ∈ e.requiredItems, 1 ≤ it.quantity; decide)
    (List.Forall₂.cons
      ⟨rfl, rfl, rfl,
        List.Perm.swap (⟨"Dough", 1⟩ : RequiredItem) ⟨"Flour", 1⟩ []⟩
      (List.Forall₂.cons ⟨rfl, rfl, rfl, List.Perm.refl _⟩
        (List.Forall₂.cons ⟨rfl, rfl, rfl, List.Perm.refl _⟩
          List.Forall₂.nil)))
    rfl rfl

end Devdonalds
